import Mathlib

/-! LARA firmware extractor: a shallow embedding of `main.cpp`.

The development models the core of the extractor: the fixed-layout header
decoders (`read_filehead`, `read_parthead`), the chunked payload copy
(`write_file`) and the two chain walkers (`mode_info`, `mode_extract`).

Modelling conventions.

* A byte is a `Fin 256`; the input file is a `List Byte`.
* A `FILE` is the file contents together with the cursor and the
  end-of-file indicator of the C stream.
* The host is little-endian with 16-bit `unsigned short`, 32-bit
  `unsigned int` and 64-bit `size_t` / `long` (LP64), which is the platform
  the byte swaps of the source are written for.
* Loops of the source that may run forever take a fuel argument that bounds
  the number of loop iterations; results record whether the loop ended.
* `write_file`, `extract_loop` and `mode_extract` describe the run in which every
  output file can be opened; `extract_loop_fs` and `mode_extract_fs` add the `fopen`
  that fails, on which the source does not return from `write_file`.
-/

namespace Lara

set_option maxRecDepth 100000

/-! ## Bytes, machine words, streams -/

abbrev Byte := Fin 256

/-- Value of a C `unsigned short`. -/
def u16 (n : Nat) : Nat := n % 2 ^ 16

/-- Value of a C `unsigned int`. -/
def u32 (n : Nat) : Nat := n % 2 ^ 32

/-- Value of a C `size_t` (64 bit). -/
def u64 (n : Nat) : Nat := n % 2 ^ 64

/-- Subtraction of two `size_t` values, wrapping modulo `2 ^ 64`. -/
def sub64 (a b : Nat) : Nat := (u64 a + 2 ^ 64 - u64 b) % 2 ^ 64

/-- The macro `SWAP32(x)` of the source for a 32-bit unsigned operand:
`((x) & 0xff) << 24 | ((x) & 0xff00) << 8 | ((x) & 0xff0000) >> 8 | ((x) >> 24) & 0xff`. -/
def SWAP32 (x : Nat) : Nat :=
  u32 ((x &&& 0xff) <<< 24) ||| u32 ((x &&& 0xff00) <<< 8) ||| ((x &&& 0xff0000) >>> 8)
    ||| ((x >>> 24) &&& 0xff)

/-- The macro `SWAP16(x)` of the source: `((x) & 0xff) << 8 | (x) >> 8`, computed in `int`
after integer promotion of the `unsigned short` operand. -/
def SWAP16 (x : Nat) : Nat :=
  ((x &&& 0xff) <<< 8) ||| (x >>> 8)

/-- Little-endian load of a two-byte field. -/
def le16 (b0 b1 : Byte) : Nat := b0.val + b1.val * 2 ^ 8

/-- Little-endian load of a four-byte field. -/
def le32 (b0 b1 b2 b3 : Byte) : Nat :=
  b0.val + b1.val * 2 ^ 8 + b2.val * 2 ^ 16 + b3.val * 2 ^ 24

/-- Byte `i` of a buffer (zero outside the buffer). -/
def byteAt (r : List Byte) (i : Nat) : Byte := r.getD i 0

/-- The bytes `[a, b)` of a byte list. -/
def slice (s : List Byte) (a b : Nat) : List Byte := (s.drop a).take (b - a)

/-- C stream opened for reading: contents, cursor and end-of-file indicator. -/
structure FILE where
  data : List Byte
  pos : Nat
  eof : Bool
  deriving DecidableEq, Repr

/-- The model of `fopen(fw, "r")` on an existing file with contents `s`. -/
def fopen (s : List Byte) : FILE := { data := s, pos := 0, eof := false }

/-- The model of `fread(buf, 1, n, f)`: the bytes obtained and the stream afterwards.
A read that obtains fewer than `n` bytes sets the end-of-file indicator. -/
def fread (n : Nat) (f : FILE) : List Byte × FILE :=
  let got := (f.data.drop f.pos).take n
  (got, { f with pos := f.pos + got.length, eof := f.eof || decide (got.length < n) })

/-- The model of `fseek(f, off, SEEK_SET)`: sets the cursor and clears end-of-file. -/
def fseek (f : FILE) (off : Nat) : FILE := { f with pos := off, eof := false }

/-- The model of `ftell(f)`. -/
def ftell (f : FILE) : Nat := f.pos

/-- The model of `feof(f)`. -/
def feof (f : FILE) : Bool := f.eof

/-! ## Header records -/

/-- The value of `sizeof(struct parthead)` for the packed layout: 14 + 2 + 4 + 4 + 72 + 32. -/
def sizeof_parthead : Nat := 14 + 2 + 4 + 4 + 72 + 32

/-- The value of `sizeof(struct filehead)` for the packed layout:
13 + 2 + 14 + 2 + 64 + 16 + 16 + 113. -/
def sizeof_filehead : Nat := 13 + 2 + 14 + 2 + 64 + 16 + 16 + 113

/-- The record `struct parthead`. -/
structure parthead where
  magic : List Byte
  mn : Nat
  num : Nat
  nextpart : Nat
  unknown : List Byte
  filename : List Byte
  deriving DecidableEq, Repr

/-- The record `struct filehead`. -/
structure filehead where
  magic : List Byte
  mn : Nat
  infostr1 : List Byte
  build : Nat
  edition : List Byte
  vendor : List Byte
  product : List Byte
  unknown : List Byte
  deriving DecidableEq, Repr

/-- The ASCII bytes of `"LARA firmware"`. -/
def magic_firmware : List Byte :=
  [76, 65, 82, 65, 32, 102, 105, 114, 109, 119, 97, 114, 101]

/-- The ASCII bytes of `"LARA partition"`. -/
def magic_partition : List Byte :=
  [76, 65, 82, 65, 32, 112, 97, 114, 116, 105, 116, 105, 111, 110]

/-- What a little-endian host sees in a `struct parthead` after `fread` filled it
with the record bytes `r`. -/
def parthead_load (r : List Byte) : parthead :=
  { magic := slice r 0 14
    mn := le16 (byteAt r 14) (byteAt r 15)
    num := le32 (byteAt r 16) (byteAt r 17) (byteAt r 18) (byteAt r 19)
    nextpart := le32 (byteAt r 20) (byteAt r 21) (byteAt r 22) (byteAt r 23)
    unknown := slice r 24 96
    filename := slice r 96 128 }

/-- What a little-endian host sees in a `struct filehead` after `fread` filled it
with the record bytes `h`. -/
def filehead_load (h : List Byte) : filehead :=
  { magic := slice h 0 13
    mn := le16 (byteAt h 13) (byteAt h 14)
    infostr1 := slice h 15 29
    build := le16 (byteAt h 29) (byteAt h 30)
    edition := slice h 31 95
    vendor := slice h 95 111
    product := slice h 111 127
    unknown := slice h 127 240 }

/-- Lines the program writes on standard output. -/
inductive Msg where
  | cant_read_md5
  | md5sum (digest : List Byte)
  | cant_read_fileheader
  | firmware_magic_mismatch
  | partition_magic_mismatch
  | print_filehead (fh : filehead)
  | print_parthead (ph : parthead)
  | data_offset (dofs : Int)
  | writing_file (name : List Byte)
  | lastpos_length (lastpos : Nat) (length : Nat)
  deriving DecidableEq, Repr

/-- The function `read_parthead`: the decoded header on success (`none` stands for `false`),
the stream afterwards and the lines printed. -/
def read_parthead (f : FILE) : Option parthead × FILE × List Msg :=
  let (buf, f1) := fread sizeof_parthead f
  if buf.length ≠ sizeof_parthead then (none, f1, [])
  else
    let ph := parthead_load buf
    let out := if ph.magic ≠ magic_partition then [Msg.partition_magic_mismatch] else []
    let ph := { ph with num := u32 (SWAP32 ph.num) }
    let ph := { ph with nextpart := u32 (SWAP32 ph.nextpart) }
    let ph := { ph with mn := u16 (SWAP16 ph.mn) }
    (some ph, f1, out)

/-- The function `read_filehead`: the decoded header on success (`none` stands for `false`),
the stream afterwards and the lines printed. -/
def read_filehead (f : FILE) : Option filehead × FILE × List Msg :=
  let (buf, f1) := fread sizeof_filehead f
  if buf.length ≠ sizeof_filehead then (none, f1, [])
  else
    let fh := filehead_load buf
    if fh.magic ≠ magic_firmware then (none, f1, [Msg.firmware_magic_mismatch])
    else
      let fh := { fh with mn := u16 (SWAP16 fh.mn) }
      let fh := { fh with build := u16 (SWAP16 fh.build) }
      (some fh, f1, [])

/-! ## The extraction sink -/

/-- One output file: the name it was opened under and the bytes written to it. -/
structure OutUnit where
  name : List Byte
  bytes : List Byte
  deriving DecidableEq, Repr

/-- Initial contents of the global `char partname[]`, the ASCII bytes of
`"partname_0"` (the terminating NUL is not represented). -/
def partname_init : List Byte := [112, 97, 114, 116, 110, 97, 109, 101, 95, 48]

/-- The statement `partname[9]++`. -/
def partname_incr (partname : List Byte) : List Byte :=
  partname.set 9 (byteAt partname 9 + 1)

/-- The copy loop of `write_file`: `fuel` bounds the number of evaluations of the
loop condition, `none` means the bound was reached. The result is the bytes
written so far and the stream. -/
def write_loop : Nat → FILE → Nat → List Byte → Option (List Byte × FILE)
  | 0, _, _, _ => none
  | fuel + 1, f, count, written =>
    if feof f then some (written, f)
    else if count ≤ 0 then some (written, f)
    else
      let rlen := if count < 512 then count else 512
      let (buf, f1) := fread rlen f
      let wlen := buf.length
      write_loop fuel f1 (sub64 count wlen) (written ++ buf)

/-- Number of loop-condition evaluations that `write_file` never exceeds on `f`:
every iteration but the last two consumes at least one byte of the stream. -/
def write_fuel (f : FILE) : Nat := f.data.length - f.pos + 2

/-- The function `write_file(f, fh, count)`: the unit written, the stream
afterwards, the new value of the global `partname` and the line printed. -/
def write_file (f : FILE) (partname : List Byte) (count : Nat) :
    Option (OutUnit × FILE × List Byte × List Msg) :=
  match write_loop (write_fuel f) f (u64 count) [] with
  | none => none
  | some (bytes, f1) =>
    some ({ name := partname, bytes := bytes }, f1, partname_incr partname,
      [Msg.writing_file partname])

/-! ## The chain walkers -/

/-- One iteration of the `mode_extract` loop: where the header was read, the
decoded header, the value of `lastpos` at that moment and the byte count handed
to `write_file` (`none` when `write_file` was not called). -/
structure XVisit where
  start : Nat
  ph : parthead
  lastpos : Nat
  count : Option Nat
  deriving DecidableEq, Repr

/-- One iteration of the `mode_info` loop: where the header was read, the decoded
header and the reported data offset. -/
structure IVisit where
  start : Nat
  ph : parthead
  dofs : Int
  deriving DecidableEq, Repr

/-- Observable result of a run of `mode_extract`. -/
structure XRun where
  stdout : List Msg
  units : List OutUnit
  visits : List XVisit
  finished : Bool
  deriving DecidableEq, Repr

/-- Observable result of a run of `mode_info`. -/
structure IRun where
  stdout : List Msg
  visits : List IVisit
  finished : Bool
  deriving DecidableEq, Repr

/-- Conversion of a `long` to `int` (two's complement, 32 bit). -/
def to_int (n : Nat) : Int :=
  if n % 2 ^ 32 < 2 ^ 31 then (n % 2 ^ 32 : Nat) else ((n % 2 ^ 32 : Nat) : Int) - 2 ^ 32

/-- The `while(read_parthead(f,&ph))` loop of `mode_extract`, with the loop state
`f`, `lastpos` and the global `partname`. -/
def extract_loop : Nat → FILE → Nat → List Byte → XRun
  | 0, _, _, _ => { stdout := [], units := [], visits := [], finished := false }
  | fuel + 1, f, lastpos, partname =>
    match read_parthead f with
    | (none, _, out) => { stdout := out, units := [], visits := [], finished := true }
    | (some ph, f1, out) =>
      if ph.nextpart ≠ 0 then
        let count := sub64 (sub64 ph.nextpart lastpos) sizeof_parthead
        match write_file f1 partname count with
        | none => { stdout := out ++ [Msg.print_parthead ph], units := [], visits := [],
                    finished := false }
        | some (unit, f2, partname1, wout) =>
          let f3 := fseek f2 ph.nextpart
          let rest := extract_loop fuel f3 ph.nextpart partname1
          { stdout := out ++ [Msg.print_parthead ph] ++ wout ++
              [Msg.lastpos_length ph.nextpart (sub64 ph.nextpart lastpos)] ++ rest.stdout
            units := unit :: rest.units
            visits := { start := f.pos, ph := ph, lastpos := lastpos, count := some count }
              :: rest.visits
            finished := rest.finished }
      else
        { stdout := out ++ [Msg.print_parthead ph], units := []
          visits := [{ start := f.pos, ph := ph, lastpos := lastpos, count := none }]
          finished := true }

/-- The function `mode_extract` on a file with contents `s`. -/
def mode_extract (fuel : Nat) (s : List Byte) : XRun :=
  let f := fopen s
  let (md5, f) := fread 16 f
  if md5.length ≠ 16 then
    { stdout := [Msg.cant_read_md5], units := [], visits := [], finished := true }
  else
    match read_filehead f with
    | (none, _, out) =>
      { stdout := [Msg.md5sum md5] ++ out ++ [Msg.cant_read_fileheader], units := [],
        visits := [], finished := true }
    | (some fh, f1, out) =>
      let r := extract_loop fuel f1 0x180 partname_init
      { r with stdout := [Msg.md5sum md5] ++ out ++ [Msg.print_filehead fh] ++ r.stdout }

/-- The `while(read_parthead(f,&ph))` loop of `mode_info`. -/
def info_loop : Nat → FILE → IRun
  | 0, _ => { stdout := [], visits := [], finished := false }
  | fuel + 1, f =>
    match read_parthead f with
    | (none, _, out) => { stdout := out, visits := [], finished := true }
    | (some ph, f1, out) =>
      let dofs := to_int (ftell f1)
      if ph.nextpart ≠ 0 then
        let f2 := fseek f1 ph.nextpart
        let rest := info_loop fuel f2
        { stdout := out ++ [Msg.data_offset dofs, Msg.print_parthead ph] ++ rest.stdout
          visits := { start := f.pos, ph := ph, dofs := dofs } :: rest.visits
          finished := rest.finished }
      else
        { stdout := out ++ [Msg.data_offset dofs, Msg.print_parthead ph]
          visits := [{ start := f.pos, ph := ph, dofs := dofs }]
          finished := true }

/-- The function `mode_info` on a file with contents `s`. -/
def mode_info (fuel : Nat) (s : List Byte) : IRun :=
  let f := fopen s
  let (md5, f) := fread 16 f
  if md5.length ≠ 16 then
    { stdout := [Msg.cant_read_md5], visits := [], finished := true }
  else
    match read_filehead f with
    | (none, _, out) =>
      { stdout := [Msg.md5sum md5] ++ out ++ [Msg.cant_read_fileheader], visits := [],
        finished := true }
    | (some fh, f1, out) =>
      let r := info_loop fuel f1
      { r with stdout := [Msg.md5sum md5] ++ out ++ [Msg.print_filehead fh] ++ r.stdout }

/-! ## Auxiliary definitions used in the statements -/

/-- The header `read_parthead` yields for the record bytes `r`: the little-endian
load followed by the three byte swaps. -/
def decode_parthead (r : List Byte) : parthead :=
  let ph := parthead_load r
  { ph with num := u32 (SWAP32 ph.num), nextpart := u32 (SWAP32 ph.nextpart),
            mn := u16 (SWAP16 ph.mn) }

/-- The warning `read_parthead` prints for the record bytes `r`. -/
def parthead_warn (r : List Byte) : List Msg :=
  if (parthead_load r).magic ≠ magic_partition then [Msg.partition_magic_mismatch] else []

/-- The partition header decoded from the 128 bytes of `s` at offset `p`. -/
def hdr_at (s : List Byte) (p : Nat) : parthead :=
  decode_parthead (slice s p (p + sizeof_parthead))

/-- The value of the expression `ph.nextpart-lastpos-sizeof(parthead)` of `mode_extract`,
computed in `size_t`. -/
def xcount (nextpart lastpos : Nat) : Nat := sub64 (sub64 nextpart lastpos) sizeof_parthead

/-- The stream after the digest and the file header were read successfully. -/
def after_filehead (s : List Byte) : FILE :=
  { data := s, pos := 16 + sizeof_filehead, eof := false }

/-- The digest and the file-header record are complete and the magic matches. -/
def file_ok (s : List Byte) : Prop :=
  16 + sizeof_filehead ≤ s.length ∧ slice s 16 29 = magic_firmware

instance (s : List Byte) : Decidable (file_ok s) := by unfold file_ok; infer_instance

/-- The visits `vs` of `mode_extract` form a chain on the stream `s`: the first header
is read at `p` while `lastpos` is `l`, every header is the record found at its start
offset, the count is the `size_t` expression of the source exactly when `nextpart` is
nonzero, a zero `nextpart` ends the walk, and the next header is read at `nextpart`
with `lastpos = nextpart`. -/
def XLinked (s : List Byte) : Nat → Nat → List XVisit → Prop
  | _, _, [] => True
  | p, l, v :: vs =>
    v.start = p ∧ v.lastpos = l ∧ p + sizeof_parthead ≤ s.length ∧ v.ph = hdr_at s p ∧
    v.count = (if v.ph.nextpart ≠ 0 then some (xcount v.ph.nextpart l) else none) ∧
    (v.ph.nextpart = 0 → vs = []) ∧ XLinked s v.ph.nextpart v.ph.nextpart vs

/-- The visits `vs` of `mode_info` form a chain on the stream `s` starting at `p`. -/
def ILinked (s : List Byte) : Nat → List IVisit → Prop
  | _, [] => True
  | p, v :: vs =>
    v.start = p ∧ p + sizeof_parthead ≤ s.length ∧ v.ph = hdr_at s p ∧
    v.dofs = to_int (p + sizeof_parthead) ∧
    (v.ph.nextpart = 0 → vs = []) ∧ ILinked s v.ph.nextpart vs

/-- The bytes `write_file` copies for a visit: `count` bytes (or fewer at the end of
the stream) starting right after the header. -/
def visit_bytes (s : List Byte) (v : XVisit) : Option (List Byte) :=
  v.count.map (fun c => (s.drop (v.start + sizeof_parthead)).take c)

/-! ## Example streams -/

/-- Big-endian encoding of a 32-bit value. -/
def be32_bytes (n : Nat) : List Byte :=
  [Fin.ofNat (n / 2 ^ 24), Fin.ofNat (n / 2 ^ 16), Fin.ofNat (n / 2 ^ 8), Fin.ofNat n]

/-- A 16-byte digest followed by a file-header record with the given magic. -/
def mk_prologue (magic : List Byte) : List Byte :=
  List.replicate 16 (0xaa : Byte) ++ magic ++ List.replicate (sizeof_filehead - magic.length) 0

/-- A partition-header record with the given partition number and next-partition offset. -/
def mk_parthead (num nextpart : Nat) : List Byte :=
  magic_partition ++ [0, 1] ++ be32_bytes num ++ be32_bytes nextpart ++
    List.replicate 72 0 ++ List.replicate 32 0

/-- Payload filler: the `n` bytes `b, b + 1, ...`. -/
def mk_payload (b n : Nat) : List Byte := (List.range n).map (fun i => Fin.ofNat (b + i))

/-- A well-formed prologue followed by one emitting partition (next header at 520)
and a terminal header: 648 bytes. -/
def stream_two : List Byte :=
  mk_prologue magic_firmware ++ mk_parthead 0 520 ++ mk_payload 1 136 ++ mk_parthead 1 0

/-- The stream `stream_two` with the first byte of the file-header magic corrupted. -/
def stream_bad_magic : List Byte :=
  mk_prologue (0 :: magic_firmware.tail) ++ mk_parthead 0 520 ++ mk_payload 1 136 ++
    mk_parthead 1 0

/-- A well-formed prologue followed by two emitting partitions (headers at 256 and 520,
the second pointing to 656) and a terminal header at 656: 784 bytes. -/
def stream_three : List Byte :=
  mk_prologue magic_firmware ++ mk_parthead 0 520 ++ mk_payload 1 136 ++
    mk_parthead 1 656 ++ mk_payload 200 8 ++ mk_parthead 2 0

/-- The scenario stream of the spec: first partition header with next-partition offset
500, second partition header at offset 500 with next-partition offset 0: 628 bytes. -/
def stream_500 : List Byte :=
  mk_prologue magic_firmware ++ mk_parthead 0 500 ++ mk_payload 1 116 ++ mk_parthead 1 0

/-- A stream whose only partition header is the terminal one, followed by 16 payload
bytes: 400 bytes. -/
def stream_terminal_only : List Byte :=
  mk_prologue magic_firmware ++ mk_parthead 0 0 ++ mk_payload 1 16

/-- A stream whose first partition header points back into itself (offset 300). -/
def stream_backward : List Byte :=
  mk_prologue magic_firmware ++ mk_parthead 0 300 ++ mk_payload 1 64

/-- The streams of the spec scenario: a 16-byte digest, a file header with magic
"LARA firmware", a first partition header with magic "LARA partition" whose
next-partition field holds 500, and a complete second partition header at offset 500 with
magic "LARA partition" whose next-partition field holds 0. -/
def scenario_500 (s : List Byte) : Prop :=
  file_ok s ∧ 500 + sizeof_parthead ≤ s.length ∧
  slice s 256 270 = magic_partition ∧ slice s 276 280 = be32_bytes 500 ∧
  slice s 500 514 = magic_partition ∧ slice s 520 524 = be32_bytes 0

instance (s : List Byte) : Decidable (scenario_500 s) := by unfold scenario_500; infer_instance

/-- The round-trip image of a run on `s`: for each visited partition, in order, its
header bytes followed by the payload bytes emitted for it. -/
def roundtrip_image (s : List Byte) (visits : List XVisit) : List Byte :=
  (visits.map (fun v =>
    slice s v.start (v.start + sizeof_parthead) ++ (visit_bytes s v).getD [])).flatten

/-- The lines that report a failure of the run: the digest or the file header could not
be read, or the file-header magic did not match. The partition-magic line is a warning. -/
def is_error_msg : Msg → Bool
  | Msg.cant_read_md5 => true
  | Msg.cant_read_fileheader => true
  | Msg.firmware_magic_mismatch => true
  | _ => false

/-- A stream that ends right after the file header: 256 bytes. -/
def stream_header_only : List Byte := mk_prologue magic_firmware

/-- The first 384 bytes of `stream_4g`: digest, file header and a first partition header
whose next-partition offset is `2 ^ 32 - 128`. -/
def stream_4g_head : List Byte :=
  mk_prologue magic_firmware ++ mk_parthead 0 (2 ^ 32 - 128)

/-- A stream of exactly `2 ^ 32` bytes: `stream_4g_head` followed by zero bytes, so that
the header at `2 ^ 32 - 128` is a terminal header that ends at the end of the stream. -/
def stream_4g : List Byte := stream_4g_head ++ List.replicate (2 ^ 32 - 384) 0

/-- The single slice the spec asks `write_file` to copy: the bytes of `s` from the cursor
`p` on, `c` of them or as many as remain. -/
def copy_slice (s : List Byte) (p c : Nat) : List Byte :=
  slice s p (p + min c (s.length - p))

/-- The name of the `k`-th unit by the words of the spec: the base name "partname_0" with
its last character replaced by the character of code `('0' + k) mod 256`. -/
def nth_name (k : Nat) : List Byte := partname_init.set 9 (Fin.ofNat (48 + k))

/-- The file name `fopen` sees in a character array: the bytes before the first NUL. -/
def c_string (name : List Byte) : List Byte := name.takeWhile (fun b => b ≠ 0)

/-- The number `printf` shows for an `int` argument under `%u` (and, in hexadecimal,
under `%.8x`): the value of the `int` modulo `2 ^ 32`. -/
def print_u32 (d : Int) : Nat := (d % 2 ^ 32).toNat

/-! ## The extraction run with a sink that can refuse a file -/

/-- The model of `fopen(partname, "w+")` in a writable working directory that holds no
directory of that name: the open succeeds exactly when the NUL-terminated name is one
path component, that is, not empty and without the character '/' (code 47). -/
def fopen_w (name : List Byte) : Bool :=
  decide (c_string name ≠ []) && decide ((47 : Byte) ∉ c_string name)

/-- Observable result of a run of `mode_extract` when an output file may fail to open.
The field `finished` says that the run has ended within the bound, the field `died` that
it ended inside `write_file`: the source does not test the result of `fopen`, and the
call does not return when the stream is null. -/
structure FsRun where
  stdout : List Msg
  units : List OutUnit
  visits : List XVisit
  finished : Bool
  died : Bool
  deriving DecidableEq, Repr

/-- The loop of `mode_extract` as `extract_loop`, with the `fopen` of `write_file` modelled
by `fopen_w`: when the output file cannot be opened the call of `write_file` prints its
line and the process dies on the null stream, so no unit is written and the run ends. -/
def extract_loop_fs : Nat → FILE → Nat → List Byte → FsRun
  | 0, _, _, _ => { stdout := [], units := [], visits := [], finished := false, died := false }
  | fuel + 1, f, lastpos, partname =>
    match read_parthead f with
    | (none, _, out) =>
      { stdout := out, units := [], visits := [], finished := true, died := false }
    | (some ph, f1, out) =>
      if ph.nextpart ≠ 0 then
        let count := sub64 (sub64 ph.nextpart lastpos) sizeof_parthead
        if fopen_w partname = false then
          { stdout := out ++ [Msg.print_parthead ph, Msg.writing_file partname], units := []
            visits := [{ start := f.pos, ph := ph, lastpos := lastpos, count := some count }]
            finished := true, died := true }
        else
          match write_file f1 partname count with
          | none => { stdout := out ++ [Msg.print_parthead ph], units := [], visits := [],
                      finished := false, died := false }
          | some (unit, f2, partname1, wout) =>
            let f3 := fseek f2 ph.nextpart
            let rest := extract_loop_fs fuel f3 ph.nextpart partname1
            { stdout := out ++ [Msg.print_parthead ph] ++ wout ++
                [Msg.lastpos_length ph.nextpart (sub64 ph.nextpart lastpos)] ++ rest.stdout
              units := unit :: rest.units
              visits := { start := f.pos, ph := ph, lastpos := lastpos, count := some count }
                :: rest.visits
              finished := rest.finished
              died := rest.died }
      else
        { stdout := out ++ [Msg.print_parthead ph], units := []
          visits := [{ start := f.pos, ph := ph, lastpos := lastpos, count := none }]
          finished := true, died := false }

/-- The function `mode_extract` on a file with contents `s`, with the `fopen` of
`write_file` modelled by `fopen_w`. -/
def mode_extract_fs (fuel : Nat) (s : List Byte) : FsRun :=
  let f := fopen s
  let (md5, f) := fread 16 f
  if md5.length ≠ 16 then
    { stdout := [Msg.cant_read_md5], units := [], visits := [], finished := true,
      died := false }
  else
    match read_filehead f with
    | (none, _, out) =>
      { stdout := [Msg.md5sum md5] ++ out ++ [Msg.cant_read_fileheader], units := [],
        visits := [], finished := true, died := false }
    | (some fh, f1, out) =>
      let r := extract_loop_fs fuel f1 0x180 partname_init
      { r with stdout := [Msg.md5sum md5] ++ out ++ [Msg.print_filehead fh] ++ r.stdout }

/-! ## Byte swaps -/

theorem and_ff (x : Nat) : x &&& 0xff = x % 256 :=
  Nat.and_pow_two_sub_one_eq_mod x 8

theorem and_ff_shifted (x k : Nat) : x &&& (0xff <<< k) = ((x / 2 ^ k) % 256) * 2 ^ k := by
  have h : x &&& (0xff <<< k) = ((x >>> k) &&& 0xff) <<< k := by
    apply Nat.eq_of_testBit_eq
    intro i
    simp only [Nat.testBit_and, Nat.testBit_shiftLeft, Nat.testBit_shiftRight]
    by_cases hk : k ≤ i
    · simp [hk, Nat.add_sub_cancel' hk]
    · simp [hk]
  rw [h, and_ff, Nat.shiftLeft_eq, Nat.shiftRight_eq_div_pow]

theorem or_eq_add (a b k : Nat) (hb : b < 2 ^ k) : a * 2 ^ k ||| b = a * 2 ^ k + b := by
  rw [Nat.mul_comm]; exact (Nat.mul_add_lt_is_or hb a).symm

theorem SWAP16_le16 (b0 b1 : Byte) : u16 (SWAP16 (le16 b0 b1)) = b0.val * 2 ^ 8 + b1.val := by
  have h0 := b0.isLt
  have h1 := b1.isLt
  unfold SWAP16 le16 u16
  rw [and_ff, Nat.shiftLeft_eq, Nat.shiftRight_eq_div_pow]
  have e1 : (b0.val + b1.val * 2 ^ 8) % 256 = b0.val := by omega
  have e2 : (b0.val + b1.val * 2 ^ 8) / 2 ^ 8 = b1.val := by omega
  rw [e1, e2, or_eq_add _ _ 8 (by omega)]
  omega

theorem SWAP32_le32 (b0 b1 b2 b3 : Byte) :
    u32 (SWAP32 (le32 b0 b1 b2 b3)) =
      b0.val * 2 ^ 24 + b1.val * 2 ^ 16 + b2.val * 2 ^ 8 + b3.val := by
  have h0 := b0.isLt
  have h1 := b1.isLt
  have h2 := b2.isLt
  have h3 := b3.isLt
  unfold SWAP32 le32 u32
  have m1 : (0xff00 : Nat) = 0xff <<< 8 := by decide
  have m2 : (0xff0000 : Nat) = 0xff <<< 16 := by decide
  rw [m1, m2, and_ff_shifted, and_ff_shifted, and_ff, and_ff]
  simp only [Nat.shiftLeft_eq, Nat.shiftRight_eq_div_pow]
  have e0 : (b0.val + b1.val * 2 ^ 8 + b2.val * 2 ^ 16 + b3.val * 2 ^ 24) % 256 = b0.val := by
    omega
  have e1 : (b0.val + b1.val * 2 ^ 8 + b2.val * 2 ^ 16 + b3.val * 2 ^ 24) / 2 ^ 8 % 256
      = b1.val := by omega
  have e2 : (b0.val + b1.val * 2 ^ 8 + b2.val * 2 ^ 16 + b3.val * 2 ^ 24) / 2 ^ 16 % 256
      = b2.val := by omega
  have e3 : (b0.val + b1.val * 2 ^ 8 + b2.val * 2 ^ 16 + b3.val * 2 ^ 24) / 2 ^ 24 % 256
      = b3.val := by omega
  rw [e0, e1, e2, e3]
  have f0 : b0.val * 2 ^ 24 % 2 ^ 32 = b0.val * 2 ^ 24 := by omega
  have f1 : b1.val * 2 ^ 8 * 2 ^ 8 % 2 ^ 32 = b1.val * 2 ^ 16 := by omega
  have f2 : b2.val * 2 ^ 16 / 2 ^ 8 = b2.val * 2 ^ 8 := by omega
  rw [f0, f1, f2]
  rw [Nat.lor_assoc, Nat.lor_assoc, or_eq_add _ _ 8 (by omega), or_eq_add _ _ 16 (by omega),
    or_eq_add _ _ 24 (by omega)]
  omega

/-! ## Streams and the copy loop -/

theorem fread_fst_length (n : Nat) (f : FILE) :
    (fread n f).1.length = min n (f.data.length - f.pos) := by
  simp [fread]

theorem write_loop_eof (fuel : Nat) (f : FILE) (c : Nat) (out : List Byte)
    (he : f.eof = true) : write_loop (fuel + 1) f c out = some (out, f) := by
  simp [write_loop, feof, he]

theorem sub64_of_le (a b : Nat) (ha : a < 2 ^ 64) (hb : b ≤ a) : sub64 a b = a - b := by
  unfold sub64 u64
  rw [Nat.mod_eq_of_lt ha, Nat.mod_eq_of_lt (by omega : b < 2 ^ 64)]
  omega

theorem write_loop_spec : ∀ (fuel : Nat) (f : FILE) (c : Nat) (out : List Byte),
    f.eof = false → c < 2 ^ 64 → f.data.length - f.pos + 2 ≤ fuel →
    write_loop fuel f c out =
      some (out ++ (f.data.drop f.pos).take c,
        { data := f.data, pos := f.pos + min c (f.data.length - f.pos),
          eof := decide (f.data.length - f.pos < c) }) := by
  intro fuel
  induction fuel with
  | zero => intro f c out _ _ h; omega
  | succ fuel ih =>
    intro f c out he hc hfuel
    obtain ⟨data, pos, eof⟩ := f
    simp only at he hfuel ⊢
    subst he
    by_cases hc0 : c = 0
    · subst hc0
      simp [write_loop, feof]
    · have hpos : 0 < c := Nat.pos_of_ne_zero hc0
      simp only [write_loop, feof, Bool.false_eq_true, if_false, Nat.le_zero, hc0]
      generalize hr : (if c < 512 then c else 512) = rlen
      have hr1 : 0 < rlen := by rw [← hr]; split <;> omega
      have hr2 : rlen ≤ c := by rw [← hr]; split <;> omega
      by_cases hshort : data.length - pos < rlen
      · -- short read: the end-of-file indicator ends the loop
        obtain ⟨fuel, rfl⟩ : ∃ k, fuel = k + 1 := ⟨fuel - 1, by omega⟩
        have hlen : (List.drop pos data).length < rlen := by simpa using hshort
        have e1 : List.take rlen (List.drop pos data) = List.drop pos data :=
          List.take_of_length_le (by omega)
        have e2 : List.take c (List.drop pos data) = List.drop pos data :=
          List.take_of_length_le (by omega)
        rw [write_loop_eof]
        · simp only [fread, e1, e2, List.length_drop]
          congr 3
          · omega
          · simp; omega
        · simp [fread, e1]; omega
      · -- full chunk
        have hlen : rlen ≤ (List.drop pos data).length := by simp; omega
        have hgot : (List.take rlen (List.drop pos data)).length = rlen := by
          simp [List.length_take]; omega
        simp only [fread, hgot]
        rw [sub64_of_le c rlen hc hr2]
        rw [ih _ _ _ (by simp) (by omega) (by simp; omega)]
        simp only [List.drop_drop, List.append_assoc]
        congr 2
        · congr 1
          have : c = rlen + (c - rlen) := by omega
          conv_rhs => rw [this, List.take_add]
          simp [List.drop_drop, Nat.add_comm]
        · congr 1
          · omega
          · simp; omega

/-! ## The header readers -/

theorem sizeof_parthead_eq : sizeof_parthead = 128 := rfl

theorem sizeof_filehead_eq : sizeof_filehead = 240 := rfl

theorem read_parthead_of_le (f : FILE) (h : f.pos + sizeof_parthead ≤ f.data.length) :
    read_parthead f =
      (some (hdr_at f.data f.pos), { f with pos := f.pos + sizeof_parthead },
        parthead_warn (slice f.data f.pos (f.pos + sizeof_parthead))) := by
  obtain ⟨data, pos, eof⟩ := f
  simp only [sizeof_parthead_eq] at h
  have hlen : (List.take sizeof_parthead (List.drop pos data)).length = sizeof_parthead := by
    simp [List.length_take, sizeof_parthead_eq]; omega
  simp only [read_parthead, fread, hlen, ne_eq, not_true_eq_false, if_false, hdr_at,
    decode_parthead, parthead_warn, slice, Nat.add_sub_cancel_left, lt_self_iff_false,
    decide_False, Bool.or_false]

theorem read_parthead_of_gt (f : FILE) (h : f.data.length < f.pos + sizeof_parthead) :
    ∃ f1, read_parthead f = (none, f1, []) := by
  obtain ⟨data, pos, eof⟩ := f
  simp only [sizeof_parthead_eq] at h
  have hlen : (List.take sizeof_parthead (List.drop pos data)).length ≠ sizeof_parthead := by
    simp [List.length_take, sizeof_parthead_eq]; omega
  simp only [read_parthead, fread, ne_eq, hlen, not_false_eq_true, if_true]
  exact ⟨_, rfl⟩

theorem read_filehead_of_ok (f : FILE) (h : f.pos + sizeof_filehead ≤ f.data.length)
    (hm : slice f.data f.pos (f.pos + 13) = magic_firmware) :
    ∃ fh, read_filehead f = (some fh, { f with pos := f.pos + sizeof_filehead }, []) := by
  obtain ⟨data, pos, eof⟩ := f
  simp only [sizeof_filehead_eq] at h
  simp only at hm
  have hlen : (List.take sizeof_filehead (List.drop pos data)).length = sizeof_filehead := by
    simp [List.length_take, sizeof_filehead_eq]; omega
  have hmag : (filehead_load (List.take sizeof_filehead (List.drop pos data))).magic
      = magic_firmware := by
    rw [← hm]
    simp [filehead_load, slice, List.take_take, sizeof_filehead]
  simp only [read_filehead, fread, hlen, ne_eq, not_true_eq_false, if_false, hmag,
    lt_self_iff_false, decide_False, Bool.or_false]
  exact ⟨_, rfl⟩

theorem read_filehead_of_not_ok (f : FILE)
    (h : ¬ (f.pos + sizeof_filehead ≤ f.data.length ∧
      slice f.data f.pos (f.pos + 13) = magic_firmware)) :
    ∃ f1 out, read_filehead f = (none, f1, out) := by
  obtain ⟨data, pos, eof⟩ := f
  simp only at h
  by_cases hl : pos + sizeof_filehead ≤ data.length
  · have hm : slice data pos (pos + 13) ≠ magic_firmware := fun hm => h ⟨hl, hm⟩
    simp only [sizeof_filehead_eq] at hl
    have hlen : (List.take sizeof_filehead (List.drop pos data)).length = sizeof_filehead := by
      simp [List.length_take, sizeof_filehead_eq]; omega
    have hmag : (filehead_load (List.take sizeof_filehead (List.drop pos data))).magic
        ≠ magic_firmware := by
      intro hc
      apply hm
      rw [← hc]
      simp [filehead_load, slice, List.take_take, sizeof_filehead]
    simp only [read_filehead, fread, hlen, ne_eq, not_true_eq_false, if_false,
      hmag, not_false_eq_true, if_true]
    exact ⟨_, _, rfl⟩
  · simp only [sizeof_filehead_eq] at hl
    have hlen : (List.take sizeof_filehead (List.drop pos data)).length ≠ sizeof_filehead := by
      simp [List.length_take, sizeof_filehead_eq]; omega
    simp only [read_filehead, fread, ne_eq, hlen, not_false_eq_true, if_true]
    exact ⟨_, _, rfl⟩

/-! ## One iteration of the walkers -/

theorem u64_lt (n : Nat) : u64 n < 2 ^ 64 := Nat.mod_lt _ (by norm_num)

theorem sub64_lt (a b : Nat) : sub64 a b < 2 ^ 64 := Nat.mod_lt _ (by norm_num)

theorem u64_of_lt (n : Nat) (h : n < 2 ^ 64) : u64 n = n := Nat.mod_eq_of_lt h

theorem write_file_spec (f : FILE) (partname : List Byte) (count : Nat) (he : f.eof = false) :
    write_file f partname count =
      some ({ name := partname, bytes := (f.data.drop f.pos).take (u64 count) },
        { data := f.data, pos := f.pos + min (u64 count) (f.data.length - f.pos),
          eof := decide (f.data.length - f.pos < u64 count) },
        partname_incr partname, [Msg.writing_file partname]) := by
  unfold write_file write_fuel
  rw [write_loop_spec _ f (u64 count) [] he (u64_lt count) (Nat.le_refl _)]
  simp

/-- The copy loop of `write_file` always ends within the bound `write_fuel`: the call
returns for every stream, name and count. -/
theorem write_file_total (f : FILE) (partname : List Byte) (count : Nat) :
    (write_file f partname count).isSome = true := by
  cases he : f.eof with
  | false => rw [write_file_spec f partname count he]; rfl
  | true =>
    unfold write_file write_fuel
    rw [write_loop_eof _ f _ _ he]
    rfl

theorem extract_loop_short (fuel : Nat) (f : FILE) (lastpos : Nat) (pn : List Byte)
    (h : f.data.length < f.pos + sizeof_parthead) :
    extract_loop (fuel + 1) f lastpos pn =
      { stdout := [], units := [], visits := [], finished := true } := by
  obtain ⟨f1, h1⟩ := read_parthead_of_gt f h
  simp only [extract_loop, h1]

theorem extract_loop_last (fuel : Nat) (f : FILE) (lastpos : Nat) (pn : List Byte)
    (h : f.pos + sizeof_parthead ≤ f.data.length) (hz : (hdr_at f.data f.pos).nextpart = 0) :
    extract_loop (fuel + 1) f lastpos pn =
      { stdout := parthead_warn (slice f.data f.pos (f.pos + sizeof_parthead)) ++
          [Msg.print_parthead (hdr_at f.data f.pos)],
        units := [],
        visits := [{ start := f.pos, ph := hdr_at f.data f.pos, lastpos := lastpos,
                     count := none }],
        finished := true } := by
  simp only [extract_loop, read_parthead_of_le f h, hz, ne_eq, not_true_eq_false, if_false]

theorem extract_loop_next (fuel : Nat) (f : FILE) (lastpos : Nat) (pn : List Byte)
    (h : f.pos + sizeof_parthead ≤ f.data.length) (hz : (hdr_at f.data f.pos).nextpart ≠ 0)
    (he : f.eof = false) :
    extract_loop (fuel + 1) f lastpos pn =
      XRun.mk
        (parthead_warn (slice f.data f.pos (f.pos + sizeof_parthead)) ++
          [Msg.print_parthead (hdr_at f.data f.pos)] ++ [Msg.writing_file pn] ++
          [Msg.lastpos_length (hdr_at f.data f.pos).nextpart
            (sub64 (hdr_at f.data f.pos).nextpart lastpos)] ++
          (extract_loop fuel ⟨f.data, (hdr_at f.data f.pos).nextpart, false⟩
            (hdr_at f.data f.pos).nextpart (partname_incr pn)).stdout)
        (OutUnit.mk pn ((f.data.drop (f.pos + sizeof_parthead)).take
            (xcount (hdr_at f.data f.pos).nextpart lastpos)) ::
          (extract_loop fuel ⟨f.data, (hdr_at f.data f.pos).nextpart, false⟩
            (hdr_at f.data f.pos).nextpart (partname_incr pn)).units)
        (XVisit.mk f.pos (hdr_at f.data f.pos) lastpos
            (some (xcount (hdr_at f.data f.pos).nextpart lastpos)) ::
          (extract_loop fuel ⟨f.data, (hdr_at f.data f.pos).nextpart, false⟩
            (hdr_at f.data f.pos).nextpart (partname_incr pn)).visits)
        (extract_loop fuel ⟨f.data, (hdr_at f.data f.pos).nextpart, false⟩
            (hdr_at f.data f.pos).nextpart (partname_incr pn)).finished := by
  obtain ⟨data, pos, eof⟩ := f
  simp only at h hz he ⊢
  subst he
  have hr := read_parthead_of_le ⟨data, pos, false⟩ h
  simp only at hr
  rw [extract_loop, hr]
  show (if (hdr_at data pos).nextpart ≠ 0 then _ else _) = _
  rw [if_pos hz]
  have hw := write_file_spec ⟨data, pos + sizeof_parthead, false⟩ pn
    (sub64 (sub64 (hdr_at data pos).nextpart lastpos) sizeof_parthead) rfl
  rw [u64_of_lt _ (sub64_lt _ _)] at hw
  simp only [] at hw
  simp only [hw, fseek, xcount]

theorem info_loop_short (fuel : Nat) (f : FILE)
    (h : f.data.length < f.pos + sizeof_parthead) :
    info_loop (fuel + 1) f = { stdout := [], visits := [], finished := true } := by
  obtain ⟨f1, h1⟩ := read_parthead_of_gt f h
  simp only [info_loop, h1]

theorem info_loop_last (fuel : Nat) (f : FILE)
    (h : f.pos + sizeof_parthead ≤ f.data.length) (hz : (hdr_at f.data f.pos).nextpart = 0) :
    info_loop (fuel + 1) f =
      { stdout := parthead_warn (slice f.data f.pos (f.pos + sizeof_parthead)) ++
          [Msg.data_offset (to_int (f.pos + sizeof_parthead)),
            Msg.print_parthead (hdr_at f.data f.pos)],
        visits := [{ start := f.pos, ph := hdr_at f.data f.pos,
                     dofs := to_int (f.pos + sizeof_parthead) }],
        finished := true } := by
  simp only [info_loop, read_parthead_of_le f h, hz, ne_eq, not_true_eq_false, if_false, ftell]

theorem info_loop_next (fuel : Nat) (f : FILE)
    (h : f.pos + sizeof_parthead ≤ f.data.length) (hz : (hdr_at f.data f.pos).nextpart ≠ 0) :
    info_loop (fuel + 1) f =
      { stdout := parthead_warn (slice f.data f.pos (f.pos + sizeof_parthead)) ++
          [Msg.data_offset (to_int (f.pos + sizeof_parthead)),
            Msg.print_parthead (hdr_at f.data f.pos)] ++
          (info_loop fuel ⟨f.data, (hdr_at f.data f.pos).nextpart, false⟩).stdout,
        visits := { start := f.pos, ph := hdr_at f.data f.pos,
                    dofs := to_int (f.pos + sizeof_parthead) } ::
          (info_loop fuel ⟨f.data, (hdr_at f.data f.pos).nextpart, false⟩).visits,
        finished := (info_loop fuel ⟨f.data, (hdr_at f.data f.pos).nextpart, false⟩).finished } := by
  simp only [info_loop, read_parthead_of_le f h, hz, ne_eq, not_false_eq_true, if_true, ftell,
    fseek]

/-! ## The prologue of both modes -/

theorem file_ok_iff (s : List Byte) :
    file_ok s ↔ (16 ≤ s.length ∧ 16 + sizeof_filehead ≤ s.length ∧
      slice s 16 (16 + 13) = magic_firmware) := by
  unfold file_ok; simp only [sizeof_filehead_eq]; constructor
  · rintro ⟨h1, h2⟩; exact ⟨by omega, h1, h2⟩
  · rintro ⟨_, h1, h2⟩; exact ⟨h1, h2⟩

theorem fread_digest (s : List Byte) (h : 16 ≤ s.length) :
    fread 16 (fopen s) = (s.take 16, { data := s, pos := 16, eof := false }) := by
  have : (List.take 16 s).length = 16 := by simp [List.length_take]; omega
  simp [fread, fopen, this]

theorem mode_extract_of_ok (fuel : Nat) (s : List Byte) (h : file_ok s) :
    (mode_extract fuel s).units = (extract_loop fuel (after_filehead s) 0x180 partname_init).units ∧
    (mode_extract fuel s).visits =
      (extract_loop fuel (after_filehead s) 0x180 partname_init).visits ∧
    (mode_extract fuel s).finished =
      (extract_loop fuel (after_filehead s) 0x180 partname_init).finished := by
  obtain ⟨h16, h1, h2⟩ := (file_ok_iff s).1 h
  obtain ⟨fh, hfh⟩ := read_filehead_of_ok { data := s, pos := 16, eof := false } h1 h2
  have hl : (List.take 16 s).length = 16 := by simp [List.length_take]; omega
  simp only [mode_extract, fread_digest s h16, hl, ne_eq, not_true_eq_false, if_false, hfh,
    after_filehead, and_self]

theorem mode_extract_of_not_ok (fuel : Nat) (s : List Byte) (h : ¬ file_ok s) :
    (mode_extract fuel s).units = [] ∧ (mode_extract fuel s).visits = [] ∧
    (mode_extract fuel s).finished = true := by
  by_cases h16 : 16 ≤ s.length
  · have h' : ¬ ((16 : Nat) + sizeof_filehead ≤ s.length ∧
        slice s 16 (16 + 13) = magic_firmware) := by
      intro hc; exact h ((file_ok_iff s).2 ⟨h16, hc.1, hc.2⟩)
    obtain ⟨f1, out, hfh⟩ := read_filehead_of_not_ok { data := s, pos := 16, eof := false } h'
    have hl : (List.take 16 s).length = 16 := by simp [List.length_take]; omega
    simp only [mode_extract, fread_digest s h16, hl, ne_eq, not_true_eq_false, if_false, hfh,
      and_self]
  · have hl : (fread 16 (fopen s)).1.length ≠ 16 := by
      rw [fread_fst_length]; simp [fopen]; omega
    simp only [mode_extract, ne_eq, hl, not_false_eq_true, if_true, and_self]

theorem mode_info_of_ok (fuel : Nat) (s : List Byte) (h : file_ok s) :
    (mode_info fuel s).visits = (info_loop fuel (after_filehead s)).visits ∧
    (mode_info fuel s).finished = (info_loop fuel (after_filehead s)).finished := by
  obtain ⟨h16, h1, h2⟩ := (file_ok_iff s).1 h
  obtain ⟨fh, hfh⟩ := read_filehead_of_ok { data := s, pos := 16, eof := false } h1 h2
  have hl : (List.take 16 s).length = 16 := by simp [List.length_take]; omega
  simp only [mode_info, fread_digest s h16, hl, ne_eq, not_true_eq_false, if_false, hfh,
    after_filehead, and_self]

theorem mode_info_of_not_ok (fuel : Nat) (s : List Byte) (h : ¬ file_ok s) :
    (mode_info fuel s).visits = [] ∧ (mode_info fuel s).finished = true := by
  by_cases h16 : 16 ≤ s.length
  · have h' : ¬ ((16 : Nat) + sizeof_filehead ≤ s.length ∧
        slice s 16 (16 + 13) = magic_firmware) := by
      intro hc; exact h ((file_ok_iff s).2 ⟨h16, hc.1, hc.2⟩)
    obtain ⟨f1, out, hfh⟩ := read_filehead_of_not_ok { data := s, pos := 16, eof := false } h'
    have hl : (List.take 16 s).length = 16 := by simp [List.length_take]; omega
    simp only [mode_info, fread_digest s h16, hl, ne_eq, not_true_eq_false, if_false, hfh,
      and_self]
  · have hl : (fread 16 (fopen s)).1.length ≠ 16 := by
      rw [fread_fst_length]; simp [fopen]; omega
    simp only [mode_info, ne_eq, hl, not_false_eq_true, if_true, and_self]

/-! ## The walks as chains -/

theorem extract_loop_cases (fuel : Nat) (f : FILE) (lastpos : Nat) (pn : List Byte)
    (he : f.eof = false) :
    (f.data.length < f.pos + sizeof_parthead ∧
      extract_loop (fuel + 1) f lastpos pn = XRun.mk [] [] [] true) ∨
    (f.pos + sizeof_parthead ≤ f.data.length ∧ (hdr_at f.data f.pos).nextpart = 0 ∧
      (extract_loop (fuel + 1) f lastpos pn).units = [] ∧
      (extract_loop (fuel + 1) f lastpos pn).visits =
        [XVisit.mk f.pos (hdr_at f.data f.pos) lastpos none] ∧
      (extract_loop (fuel + 1) f lastpos pn).finished = true) ∨
    (f.pos + sizeof_parthead ≤ f.data.length ∧ (hdr_at f.data f.pos).nextpart ≠ 0 ∧
      (extract_loop (fuel + 1) f lastpos pn).units =
        OutUnit.mk pn ((f.data.drop (f.pos + sizeof_parthead)).take
            (xcount (hdr_at f.data f.pos).nextpart lastpos)) ::
          (extract_loop fuel ⟨f.data, (hdr_at f.data f.pos).nextpart, false⟩
            (hdr_at f.data f.pos).nextpart (partname_incr pn)).units ∧
      (extract_loop (fuel + 1) f lastpos pn).visits =
        XVisit.mk f.pos (hdr_at f.data f.pos) lastpos
            (some (xcount (hdr_at f.data f.pos).nextpart lastpos)) ::
          (extract_loop fuel ⟨f.data, (hdr_at f.data f.pos).nextpart, false⟩
            (hdr_at f.data f.pos).nextpart (partname_incr pn)).visits ∧
      (extract_loop (fuel + 1) f lastpos pn).finished =
        (extract_loop fuel ⟨f.data, (hdr_at f.data f.pos).nextpart, false⟩
            (hdr_at f.data f.pos).nextpart (partname_incr pn)).finished) := by
  by_cases h : f.pos + sizeof_parthead ≤ f.data.length
  · by_cases hz : (hdr_at f.data f.pos).nextpart = 0
    · right; left
      rw [extract_loop_last fuel f lastpos pn h hz]
      exact ⟨h, hz, rfl, rfl, rfl⟩
    · right; right
      rw [extract_loop_next fuel f lastpos pn h hz he]
      exact ⟨h, hz, rfl, rfl, rfl⟩
  · left
    exact ⟨by omega, extract_loop_short fuel f lastpos pn (by omega)⟩

theorem info_loop_cases (fuel : Nat) (f : FILE) :
    (f.data.length < f.pos + sizeof_parthead ∧
      info_loop (fuel + 1) f = IRun.mk [] [] true) ∨
    (f.pos + sizeof_parthead ≤ f.data.length ∧ (hdr_at f.data f.pos).nextpart = 0 ∧
      (info_loop (fuel + 1) f).visits =
        [IVisit.mk f.pos (hdr_at f.data f.pos) (to_int (f.pos + sizeof_parthead))] ∧
      (info_loop (fuel + 1) f).finished = true) ∨
    (f.pos + sizeof_parthead ≤ f.data.length ∧ (hdr_at f.data f.pos).nextpart ≠ 0 ∧
      (info_loop (fuel + 1) f).visits =
        IVisit.mk f.pos (hdr_at f.data f.pos) (to_int (f.pos + sizeof_parthead)) ::
          (info_loop fuel ⟨f.data, (hdr_at f.data f.pos).nextpart, false⟩).visits ∧
      (info_loop (fuel + 1) f).finished =
        (info_loop fuel ⟨f.data, (hdr_at f.data f.pos).nextpart, false⟩).finished) := by
  by_cases h : f.pos + sizeof_parthead ≤ f.data.length
  · by_cases hz : (hdr_at f.data f.pos).nextpart = 0
    · right; left
      rw [info_loop_last fuel f h hz]
      exact ⟨h, hz, rfl, rfl⟩
    · right; right
      rw [info_loop_next fuel f h hz]
      exact ⟨h, hz, rfl, rfl⟩
  · left
    exact ⟨by omega, info_loop_short fuel f (by omega)⟩

theorem extract_loop_linked : ∀ (fuel : Nat) (f : FILE) (lastpos : Nat) (pn : List Byte),
    f.eof = false → XLinked f.data f.pos lastpos (extract_loop fuel f lastpos pn).visits := by
  intro fuel
  induction fuel with
  | zero => intro f l pn _; simp [extract_loop, XLinked]
  | succ fuel ih =>
    intro f l pn he
    rcases extract_loop_cases fuel f l pn he with ⟨_, e⟩ | ⟨h, hz, _, e, _⟩ | ⟨h, hz, _, e, _⟩
    · rw [e]; simp [XLinked]
    · rw [e]; simp [XLinked, hz, h]
    · rw [e]
      have := ih ⟨f.data, (hdr_at f.data f.pos).nextpart, false⟩
        (hdr_at f.data f.pos).nextpart (partname_incr pn) rfl
      simp only [XLinked, hz, ne_eq, not_false_eq_true, if_true, false_implies, true_and,
        and_true, h]
      exact this

theorem info_loop_linked : ∀ (fuel : Nat) (f : FILE),
    ILinked f.data f.pos (info_loop fuel f).visits := by
  intro fuel
  induction fuel with
  | zero => intro f; simp [info_loop, ILinked]
  | succ fuel ih =>
    intro f
    rcases info_loop_cases fuel f with ⟨_, e⟩ | ⟨h, hz, e, _⟩ | ⟨h, hz, e, _⟩
    · rw [e]; simp [ILinked]
    · rw [e]; simp [ILinked, hz, h]
    · rw [e]
      have := ih ⟨f.data, (hdr_at f.data f.pos).nextpart, false⟩
      simp only [ILinked, hz, false_implies, true_and, and_true, h]
      exact this

theorem extract_loop_units : ∀ (fuel : Nat) (f : FILE) (lastpos : Nat) (pn : List Byte),
    f.eof = false →
    (extract_loop fuel f lastpos pn).units.map OutUnit.bytes =
      (extract_loop fuel f lastpos pn).visits.filterMap (visit_bytes f.data) := by
  intro fuel
  induction fuel with
  | zero => intro f l pn _; simp [extract_loop]
  | succ fuel ih =>
    intro f l pn he
    rcases extract_loop_cases fuel f l pn he with ⟨_, e⟩ | ⟨h, hz, eu, e, _⟩ | ⟨h, hz, eu, e, _⟩
    · rw [e]; simp
    · rw [eu, e]; simp [visit_bytes]
    · rw [eu, e]
      have := ih ⟨f.data, (hdr_at f.data f.pos).nextpart, false⟩
        (hdr_at f.data f.pos).nextpart (partname_incr pn) rfl
      simp only [List.map_cons, List.filterMap_cons, visit_bytes, Option.map_some'] at this ⊢
      rw [this]

/-! ## Claims on the header decoders -/

theorem read_parthead_some_le (f : FILE) (ph : parthead) (f1 : FILE) (out : List Msg)
    (h : read_parthead f = (some ph, f1, out)) : f.pos + sizeof_parthead ≤ f.data.length := by
  by_contra hc
  obtain ⟨f2, h2⟩ := read_parthead_of_gt f (by omega)
  rw [h2] at h
  cases h

theorem read_parthead_isSome_iff (f : FILE) :
    (read_parthead f).1.isSome = true ↔ f.pos + sizeof_parthead ≤ f.data.length := by
  constructor
  · intro h
    by_contra hc
    obtain ⟨f2, h2⟩ := read_parthead_of_gt f (by omega)
    rw [h2] at h
    cases h
  · intro h
    rw [read_parthead_of_le f h]
    rfl

theorem read_filehead_isSome_iff (f : FILE) :
    (read_filehead f).1.isSome = true ↔
      (f.pos + sizeof_filehead ≤ f.data.length ∧
        slice f.data f.pos (f.pos + 13) = magic_firmware) := by
  constructor
  · intro h
    by_contra hc
    obtain ⟨f2, out, h2⟩ := read_filehead_of_not_ok f hc
    rw [h2] at h
    cases h
  · rintro ⟨h1, h2⟩
    obtain ⟨fh, h3⟩ := read_filehead_of_ok f h1 h2
    rw [h3]
    rfl

/-- C1: the call `read_filehead` succeeds exactly when at least `sizeof(filehead)` bytes
remain at the cursor and the first 13 of them are the ASCII bytes "LARA firmware"; and for
every stream whose file-header magic (the 13 bytes after the 16-byte digest) differs from
that tag, `mode_extract` ends before the partition loop: no partition header is decoded and
no output unit is emitted. -/
theorem C1_filehead_magic_gate :
    (∀ f : FILE, (read_filehead f).1.isSome = true ↔
      (sizeof_filehead ≤ f.data.length - f.pos ∧
        (f.data.drop f.pos).take 13 = magic_firmware)) ∧
    (∀ (fuel : Nat) (s : List Byte), (s.drop 16).take 13 ≠ magic_firmware →
      (mode_extract fuel s).units = [] ∧ (mode_extract fuel s).visits = [] ∧
        (mode_extract fuel s).finished = true) := by
  constructor
  · intro f
    rw [read_filehead_isSome_iff]
    have e : slice f.data f.pos (f.pos + 13) = (f.data.drop f.pos).take 13 := by
      simp [slice]
    rw [e]
    constructor
    · rintro ⟨h1, h2⟩
      exact ⟨by simp only [sizeof_filehead_eq] at *; omega, h2⟩
    · rintro ⟨h1, h2⟩
      refine ⟨?_, h2⟩
      simp only [sizeof_filehead_eq] at *
      omega
  · intro fuel s hm
    apply mode_extract_of_not_ok
    rintro ⟨_, h2⟩
    apply hm
    rw [← h2]
    simp [slice]

/-- Instance of C1 on a stream whose file-header magic has a corrupted first byte. -/
theorem C1_filehead_magic_gate_witness :
    (stream_bad_magic.drop 16).take 13 ≠ magic_firmware ∧
      (mode_extract 5 stream_bad_magic).units = [] ∧
      (mode_extract 5 stream_bad_magic).visits = [] ∧
      (mode_extract 5 stream_bad_magic).finished = true :=
  ⟨by decide, C1_filehead_magic_gate.2 5 stream_bad_magic (by decide)⟩

/-- C2: on a little-endian host, `read_parthead` yields for the record `r` at the cursor
`nextpart = r[20]*2^24 + r[21]*2^16 + r[22]*2^8 + r[23]`,
`num = r[16]*2^24 + r[17]*2^16 + r[18]*2^8 + r[19]` and `mn = r[14]*2^8 + r[15]`, and
`read_filehead` yields for the record `h` at the cursor `mn = h[13]*2^8 + h[14]` and
`build = h[29]*2^8 + h[30]`: the swapped little-endian loads are the big-endian values
of the field bytes. -/
theorem C2_big_endian_fields :
    (∀ (f : FILE) (ph : parthead) (f1 : FILE) (out : List Msg),
      read_parthead f = (some ph, f1, out) →
      ph.nextpart =
          (byteAt (slice f.data f.pos (f.pos + sizeof_parthead)) 20).val * 2 ^ 24 +
          (byteAt (slice f.data f.pos (f.pos + sizeof_parthead)) 21).val * 2 ^ 16 +
          (byteAt (slice f.data f.pos (f.pos + sizeof_parthead)) 22).val * 2 ^ 8 +
          (byteAt (slice f.data f.pos (f.pos + sizeof_parthead)) 23).val ∧
      ph.num =
          (byteAt (slice f.data f.pos (f.pos + sizeof_parthead)) 16).val * 2 ^ 24 +
          (byteAt (slice f.data f.pos (f.pos + sizeof_parthead)) 17).val * 2 ^ 16 +
          (byteAt (slice f.data f.pos (f.pos + sizeof_parthead)) 18).val * 2 ^ 8 +
          (byteAt (slice f.data f.pos (f.pos + sizeof_parthead)) 19).val ∧
      ph.mn =
          (byteAt (slice f.data f.pos (f.pos + sizeof_parthead)) 14).val * 2 ^ 8 +
          (byteAt (slice f.data f.pos (f.pos + sizeof_parthead)) 15).val) ∧
    (∀ (f : FILE) (fh : filehead) (f1 : FILE) (out : List Msg),
      read_filehead f = (some fh, f1, out) →
      fh.mn =
          (byteAt (slice f.data f.pos (f.pos + sizeof_filehead)) 13).val * 2 ^ 8 +
          (byteAt (slice f.data f.pos (f.pos + sizeof_filehead)) 14).val ∧
      fh.build =
          (byteAt (slice f.data f.pos (f.pos + sizeof_filehead)) 29).val * 2 ^ 8 +
          (byteAt (slice f.data f.pos (f.pos + sizeof_filehead)) 30).val) := by
  constructor
  · intro f ph f1 out h
    have hle := read_parthead_some_le f ph f1 out h
    rw [read_parthead_of_le f hle] at h
    have hph : ph = hdr_at f.data f.pos := by
      have := congrArg Prod.fst h
      simpa using this.symm
    subst hph
    simp only [hdr_at, decode_parthead, parthead_load, SWAP32_le32, SWAP16_le16, and_self]
  · intro f fh f1 out h
    have hs : (read_filehead f).1.isSome = true := by rw [h]; rfl
    obtain ⟨hle, hm⟩ := (read_filehead_isSome_iff f).1 hs
    obtain ⟨data, pos, eof⟩ := f
    simp only [sizeof_filehead_eq] at hle
    simp only at hm
    have hlen : (List.take sizeof_filehead (List.drop pos data)).length = sizeof_filehead := by
      simp [List.length_take, sizeof_filehead_eq]; omega
    have hmag : (filehead_load (List.take sizeof_filehead (List.drop pos data))).magic
        = magic_firmware := by
      rw [← hm]
      simp [filehead_load, slice, List.take_take, sizeof_filehead]
    simp only [read_filehead, fread, hlen, ne_eq, not_true_eq_false, if_false, hmag,
      Prod.mk.injEq, Option.some.injEq] at h
    obtain ⟨h1, -, -⟩ := h
    subst h1
    simp only [filehead_load, SWAP16_le16, slice, Nat.add_sub_cancel_left, and_self]

/-- Instance of C2 on the first partition header of a concrete stream: the field bytes
`00 00 02 08` decode to 520. -/
theorem C2_big_endian_fields_witness :
    (read_parthead (after_filehead stream_two)).1.map parthead.nextpart = some 520 ∧
    (hdr_at stream_two 256).nextpart =
          (byteAt (slice stream_two 256 (256 + sizeof_parthead)) 20).val * 2 ^ 24 +
          (byteAt (slice stream_two 256 (256 + sizeof_parthead)) 21).val * 2 ^ 16 +
          (byteAt (slice stream_two 256 (256 + sizeof_parthead)) 22).val * 2 ^ 8 +
          (byteAt (slice stream_two 256 (256 + sizeof_parthead)) 23).val :=
  ⟨by decide,
    (C2_big_endian_fields.1 (after_filehead stream_two) (hdr_at stream_two 256)
      ⟨stream_two, 256 + sizeof_parthead, false⟩
      (parthead_warn (slice stream_two 256 (256 + sizeof_parthead))) (by decide)).1⟩

theorem byteAt_of_drop (r : List Byte) (n k : Nat) :
    byteAt r (n + k) = byteAt (r.drop n) k := by
  simp [byteAt, List.getD_eq_getElem?_getD, List.getElem?_drop]

theorem slice_of_drop (r : List Byte) (n a b : Nat) :
    slice r (n + a) (n + b) = slice (r.drop n) a b := by
  have e : n + b - (n + a) = b - a := by omega
  simp only [slice, List.drop_drop, e, Nat.add_comm]

theorem slice_append_mid (pre r post : List Byte) :
    slice (pre ++ r ++ post) pre.length (pre.length + r.length) = r := by
  simp [slice, List.append_assoc, List.drop_append_of_le_length, List.take_append_of_le_length]

/-- The fields of a decoded partition header other than the magic depend only on the
bytes of the record from offset 14 on. -/
theorem decode_parthead_tail (r1 r2 : List Byte) (h : r1.drop 14 = r2.drop 14) :
    (decode_parthead r1).mn = (decode_parthead r2).mn ∧
    (decode_parthead r1).num = (decode_parthead r2).num ∧
    (decode_parthead r1).nextpart = (decode_parthead r2).nextpart ∧
    (decode_parthead r1).unknown = (decode_parthead r2).unknown ∧
    (decode_parthead r1).filename = (decode_parthead r2).filename := by
  have hb : ∀ k, byteAt r1 (14 + k) = byteAt r2 (14 + k) := by
    intro k; rw [byteAt_of_drop, byteAt_of_drop, h]
  have hs : ∀ a b, slice r1 (14 + a) (14 + b) = slice r2 (14 + a) (14 + b) := by
    intro a b; rw [slice_of_drop, slice_of_drop, h]
  simp only [decode_parthead, parthead_load]
  refine ⟨?_, ?_, ?_, ?_, ?_⟩
  · rw [hb 0, hb 1]
  · rw [hb 2, hb 3, hb 4, hb 5]
  · rw [hb 6, hb 7, hb 8, hb 9]
  · exact hs 10 82
  · exact hs 82 114

/-- C3: the call `read_parthead` succeeds exactly when at least `sizeof(parthead)` bytes
remain at the cursor, whatever the magic field holds; for two records at the cursor that
differ only in their first 14 bytes it returns true for both, yields the same `mn`, `num`,
`nextpart`, `unknown` and `filename`, and leaves the cursor at the same position. -/
theorem C3_parthead_magic_is_soft :
    (∀ f : FILE, (read_parthead f).1.isSome = true ↔
      sizeof_parthead ≤ f.data.length - f.pos) ∧
    (∀ (pre post r1 r2 : List Byte) (e : Bool),
      r1.length = sizeof_parthead → r2.length = sizeof_parthead → r1.drop 14 = r2.drop 14 →
      ∃ ph1 ph2 f1 f2 o1 o2,
        read_parthead ⟨pre ++ r1 ++ post, pre.length, e⟩ = (some ph1, f1, o1) ∧
        read_parthead ⟨pre ++ r2 ++ post, pre.length, e⟩ = (some ph2, f2, o2) ∧
        ph1.mn = ph2.mn ∧ ph1.num = ph2.num ∧ ph1.nextpart = ph2.nextpart ∧
        ph1.unknown = ph2.unknown ∧ ph1.filename = ph2.filename ∧ f1.pos = f2.pos) := by
  constructor
  · intro f
    rw [read_parthead_isSome_iff]
    by_cases hp : f.pos ≤ f.data.length
    · omega
    · simp only [sizeof_parthead_eq]; omega
  · intro pre post r1 r2 e h1 h2 ht
    have hl1 : pre.length + sizeof_parthead ≤ (pre ++ r1 ++ post).length := by
      simp only [List.length_append, h1]; omega
    have hl2 : pre.length + sizeof_parthead ≤ (pre ++ r2 ++ post).length := by
      simp only [List.length_append, h2]; omega
    have e1 := read_parthead_of_le ⟨pre ++ r1 ++ post, pre.length, e⟩ hl1
    have e2 := read_parthead_of_le ⟨pre ++ r2 ++ post, pre.length, e⟩ hl2
    refine ⟨_, _, _, _, _, _, e1, e2, ?_⟩
    have s1 : slice (pre ++ r1 ++ post) pre.length (pre.length + sizeof_parthead) = r1 := by
      rw [← h1]; exact slice_append_mid pre r1 post
    have s2 : slice (pre ++ r2 ++ post) pre.length (pre.length + sizeof_parthead) = r2 := by
      rw [← h2]; exact slice_append_mid pre r2 post
    simp only [hdr_at, s1, s2]
    obtain ⟨a, b, c, d, g⟩ := decode_parthead_tail r1 r2 ht
    exact ⟨a, b, c, d, g, trivial⟩

/-- Instance of C3: the first header of a concrete stream, once with the expected magic and
once with 14 zero bytes in its place, decodes to the same next-partition offset. -/
theorem C3_parthead_magic_is_soft_witness :
    (mk_parthead 0 520).drop 14 = (List.replicate 14 0 ++ (mk_parthead 0 520).drop 14).drop 14 ∧
    ∃ ph1 ph2 f1 f2 o1 o2,
        read_parthead ⟨mk_prologue magic_firmware ++ mk_parthead 0 520 ++ mk_payload 1 8,
            (mk_prologue magic_firmware).length, false⟩ = (some ph1, f1, o1) ∧
        read_parthead ⟨mk_prologue magic_firmware ++
            (List.replicate 14 0 ++ (mk_parthead 0 520).drop 14) ++ mk_payload 1 8,
            (mk_prologue magic_firmware).length, false⟩ = (some ph2, f2, o2) ∧
        ph1.mn = ph2.mn ∧ ph1.num = ph2.num ∧ ph1.nextpart = ph2.nextpart ∧
        ph1.unknown = ph2.unknown ∧ ph1.filename = ph2.filename ∧ f1.pos = f2.pos :=
  ⟨by decide,
    C3_parthead_magic_is_soft.2 (mk_prologue magic_firmware) (mk_payload 1 8)
      (mk_parthead 0 520) (List.replicate 14 0 ++ (mk_parthead 0 520).drop 14) false
      (by decide) (by decide) (by decide)⟩

/-! ## Claims on the chain walk -/

theorem XLinked_count (s : List Byte) : ∀ (vs : List XVisit) (p l : Nat),
    XLinked s p l vs → ∀ v ∈ vs, v.ph.nextpart ≠ 0 →
      v.count = some (xcount v.ph.nextpart v.lastpos) ∧ v.ph.nextpart < 2 ^ 32 := by
  intro vs
  induction vs with
  | nil => intro p l _ v h; simp at h
  | cons v0 vs ih =>
    intro p l hl v hv hz
    obtain ⟨_, hlp, _, hph, hc, _, hrest⟩ := hl
    rcases List.mem_cons.1 hv with rfl | hm
    · refine ⟨by rw [hc, hlp]; simp [hz], ?_⟩
      rw [hph]
      exact Nat.mod_lt _ (by norm_num)
    · exact ih _ _ hrest v hm hz

/-- The visits of `mode_extract` form a chain that starts at the first partition header
with the initial value `0x180` of `lastpos`. -/
theorem mode_extract_linked (fuel : Nat) (s : List Byte) :
    XLinked s (16 + sizeof_filehead) 0x180 (mode_extract fuel s).visits := by
  by_cases h : file_ok s
  · rw [(mode_extract_of_ok fuel s h).2.1]
    exact extract_loop_linked fuel (after_filehead s) 0x180 partname_init rfl
  · rw [(mode_extract_of_not_ok fuel s h).2.1]
    trivial

/-- The visits of `mode_info` form a chain that starts at the first partition header. -/
theorem mode_info_linked (fuel : Nat) (s : List Byte) :
    ILinked s (16 + sizeof_filehead) (mode_info fuel s).visits := by
  by_cases h : file_ok s
  · rw [(mode_info_of_ok fuel s h).1]
    exact info_loop_linked fuel (after_filehead s)
  · rw [(mode_info_of_not_ok fuel s h).1]
    trivial

theorem sub64_int (a b : Nat) :
    ((sub64 a b : Nat) : Int) = ((a : Int) - (b : Int)) % 2 ^ 64 := by
  unfold sub64 u64
  have h1 : a % 2 ^ 64 < 2 ^ 64 := Nat.mod_lt _ (by norm_num)
  have h2 : b % 2 ^ 64 < 2 ^ 64 := Nat.mod_lt _ (by norm_num)
  norm_num at h1 h2 ⊢
  omega

theorem xcount_int (np l : Nat) :
    ((xcount np l : Nat) : Int) =
      ((np : Int) - (l : Int) - (sizeof_parthead : Int)) % 2 ^ 64 := by
  unfold xcount
  rw [sub64_int, sub64_int]
  norm_num
  omega

theorem xcount_of_le (np l : Nat) (h : l + sizeof_parthead ≤ np) (hnp : np < 2 ^ 64) :
    xcount np l = np - l - sizeof_parthead := by
  unfold xcount
  rw [sub64_of_le np l hnp (by omega), sub64_of_le _ _ (by omega) (by omega)]

theorem XLinked_head (s : List Byte) (vs : List XVisit) (p l : Nat) (hl : XLinked s p l vs)
    (v : XVisit) (hv : vs[0]? = some v) : v.start = p ∧ v.lastpos = l := by
  cases vs with
  | nil => simp at hv
  | cons v0 vs =>
    simp only [List.getElem?_cons_zero, Option.some.injEq] at hv
    subst hv
    exact ⟨hl.1, hl.2.1⟩

theorem XLinked_next (s : List Byte) : ∀ (vs : List XVisit) (p l : Nat),
    XLinked s p l vs → ∀ (i : Nat) (v w : XVisit), vs[i]? = some v → vs[i + 1]? = some w →
      w.start = v.ph.nextpart ∧ w.lastpos = v.ph.nextpart := by
  intro vs
  induction vs with
  | nil => intro p l _ i v w h; simp at h
  | cons v0 vs ih =>
    intro p l hl i v w hv hw
    obtain ⟨_, _, _, _, _, _, hrest⟩ := hl
    simp only [List.getElem?_cons_succ] at hw
    cases i with
    | zero =>
      simp only [List.getElem?_cons_zero, Option.some.injEq] at hv
      subst hv
      exact XLinked_head s vs _ _ hrest w hw
    | succ k =>
      simp only [List.getElem?_cons_succ] at hv
      exact ih _ _ hrest k v w hv hw

/-- C5: in `mode_extract`, for every decoded partition header with nonzero `nextpart`, the
byte count handed to `write_file` is `nextpart - lastpos - sizeof(parthead)` (evaluated in
`size_t`, hence modulo `2 ^ 64`, and the plain difference when it is not negative), where
`lastpos` is the initial value `0x180` for the first header and the `nextpart` of the
previously decoded header otherwise; the following header, if one is decoded, is read at
absolute offset `nextpart` with `lastpos` equal to this header's `nextpart`. -/
theorem C5_count_and_boundary (fuel : Nat) (s : List Byte) (i : Nat) (v : XVisit)
    (hv : (mode_extract fuel s).visits[i]? = some v) (hnz : v.ph.nextpart ≠ 0) :
    (∃ c : Nat, v.count = some c ∧
      (c : Int) =
        ((v.ph.nextpart : Int) - (v.lastpos : Int) - (sizeof_parthead : Int)) % 2 ^ 64 ∧
      (v.lastpos + sizeof_parthead ≤ v.ph.nextpart →
        c = v.ph.nextpart - v.lastpos - sizeof_parthead)) ∧
    (i = 0 → v.lastpos = 0x180) ∧
    (∀ (j : Nat) (u : XVisit), j + 1 = i → (mode_extract fuel s).visits[j]? = some u →
      v.lastpos = u.ph.nextpart) ∧
    (∀ w : XVisit, (mode_extract fuel s).visits[i + 1]? = some w →
      w.lastpos = v.ph.nextpart ∧ w.start = v.ph.nextpart) := by
  have hl := mode_extract_linked fuel s
  obtain ⟨hc, hlt⟩ := XLinked_count s _ _ _ hl v (List.getElem?_mem hv) hnz
  refine ⟨⟨_, hc, xcount_int _ _, ?_⟩, ?_, ?_, ?_⟩
  · intro hle
    exact xcount_of_le _ _ hle (by omega)
  · intro hi
    subst hi
    exact (XLinked_head s _ _ _ hl v hv).2
  · intro j u hj hu
    subst hj
    exact (XLinked_next s _ _ _ hl j u v hu hv).2
  · intro w hw
    obtain ⟨h1, h2⟩ := XLinked_next s _ _ _ hl i v w hv hw
    exact ⟨h2, h1⟩

/-- Instance of C5 on the second header of a stream with three headers: the header at 520
points to 656, `lastpos` is 520, the count is `656 - 520 - 128 = 8` and the third header is
read at 656. -/
theorem C5_count_and_boundary_witness :
    (mode_extract 6 stream_three).visits[1]? =
      some ⟨520, hdr_at stream_three 520, 520, some 8⟩ ∧
    (hdr_at stream_three 520).nextpart = 656 ∧
    (∃ c : Nat, (some 8 : Option Nat) = some c ∧
      (c : Int) = (((hdr_at stream_three 520).nextpart : Int) - (520 : Nat) -
        (sizeof_parthead : Int)) % 2 ^ 64 ∧
      (520 + sizeof_parthead ≤ (hdr_at stream_three 520).nextpart →
        c = (hdr_at stream_three 520).nextpart - 520 - sizeof_parthead)) ∧
    (∀ w : XVisit, (mode_extract 6 stream_three).visits[1 + 1]? = some w →
      w.lastpos = (hdr_at stream_three 520).nextpart ∧
        w.start = (hdr_at stream_three 520).nextpart) :=
  ⟨by decide, by decide,
    (C5_count_and_boundary 6 stream_three 1 ⟨520, hdr_at stream_three 520, 520, some 8⟩
      (by decide) (by decide)).1,
    (C5_count_and_boundary 6 stream_three 1 ⟨520, hdr_at stream_three 520, 520, some 8⟩
      (by decide) (by decide)).2.2.2⟩

/-! ## Claims on the extracted payloads -/

/-- C6 (the code at a failing input): on the well-formed stream `stream_two` the first
partition header starts at 256 and points to 520, and the single unit `mode_extract`
emits is `stream[384, 392)`, eight bytes, not the range `stream[256 + 128, 520)` between
the end of that header and the start of the next one. -/
theorem C6_first_unit_is_short :
    (mode_extract 5 stream_two).finished = true ∧
    (mode_extract 5 stream_two).visits.map (fun v => (v.start, v.ph.nextpart)) =
      [(256, 520), (520, 0)] ∧
    (mode_extract 5 stream_two).units.map OutUnit.bytes = [slice stream_two 384 392] ∧
    (mode_extract 5 stream_two).units.map OutUnit.bytes ≠
      [slice stream_two (256 + sizeof_parthead) 520] := by
  decide

theorem byteAt_slice (s : List Byte) (a b k : Nat) (h : k < b - a) :
    byteAt (slice s a b) k = byteAt s (a + k) := by
  simp [byteAt, slice, List.getD_eq_getElem?_getD, List.getElem?_take, h, List.getElem?_drop]

/-- The next-partition offset of the header at `p` is the big-endian value of the four
stream bytes at `p + 20`. -/
theorem hdr_at_nextpart (s : List Byte) (p : Nat) :
    (hdr_at s p).nextpart =
      (byteAt s (p + 20)).val * 2 ^ 24 + (byteAt s (p + 21)).val * 2 ^ 16 +
        (byteAt s (p + 22)).val * 2 ^ 8 + (byteAt s (p + 23)).val := by
  have e : p + sizeof_parthead - p = 128 := by simp [sizeof_parthead_eq]
  simp only [hdr_at, decode_parthead, parthead_load, SWAP32_le32]
  rw [byteAt_slice s p _ 20 (by omega), byteAt_slice s p _ 21 (by omega),
    byteAt_slice s p _ 22 (by omega), byteAt_slice s p _ 23 (by omega)]

theorem hdr_at_nextpart_of_slice (s : List Byte) (p n : Nat)
    (h : slice s (p + 20) (p + 24) = be32_bytes n) (hn : n < 2 ^ 32) :
    (hdr_at s p).nextpart = n := by
  have e : p + 24 - (p + 20) = 4 := by omega
  have b0 : byteAt s (p + 20) = byteAt (be32_bytes n) 0 := by
    rw [← h, byteAt_slice _ _ _ 0 (by omega)]
  have b1 : byteAt s (p + 21) = byteAt (be32_bytes n) 1 := by
    rw [← h, byteAt_slice _ _ _ 1 (by omega)]
  have b2 : byteAt s (p + 22) = byteAt (be32_bytes n) 2 := by
    rw [← h, byteAt_slice _ _ _ 2 (by omega)]
  have b3 : byteAt s (p + 23) = byteAt (be32_bytes n) 3 := by
    rw [← h, byteAt_slice _ _ _ 3 (by omega)]
  rw [hdr_at_nextpart, b0, b1, b2, b3]
  simp only [byteAt, be32_bytes, List.getD_cons_zero, List.getD_cons_succ, Fin.ofNat,
    Fin.val_mk]
  norm_num at hn ⊢
  omega

/-- C7 (counterexample): on the 628-byte scenario stream `stream_500`, `mode_extract`
emits one unit that holds the 244 bytes from the end of the first partition header to the
end of the stream, not the (empty) range between that header's end, offset 384, and offset
`500 - sizeof(parthead) = 372`. -/
theorem C7_scenario_unit_counterexample :
    scenario_500 stream_500 ∧
    (mode_extract 5 stream_500).units.map OutUnit.bytes =
      [slice stream_500 (256 + sizeof_parthead) stream_500.length] ∧
    (mode_extract 5 stream_500).units.map OutUnit.bytes ≠
      [slice stream_500 (256 + sizeof_parthead) (500 - sizeof_parthead)] := by
  decide

/-- C7 (amended): on every stream of the scenario (file-header magic "LARA firmware",
first partition header with next-partition offset 500, second partition header at offset
500 with next-partition offset 0), `mode_extract` decodes exactly these two headers, ends
its loop and emits exactly one unit, named "partname_0", whose bytes are a run of the
stream that starts at the end of the first partition header. -/
theorem C7_scenario_one_unit (fuel : Nat) (s : List Byte) (h : scenario_500 s) :
    (mode_extract (fuel + 2) s).finished = true ∧
    (mode_extract (fuel + 2) s).visits.map (fun v => (v.start, v.ph.nextpart)) =
      [(256, 500), (500, 0)] ∧
    (mode_extract (fuel + 2) s).units.length = 1 ∧
    (mode_extract (fuel + 2) s).units.map OutUnit.name = [partname_init] ∧
    ∃ n : Nat, (mode_extract (fuel + 2) s).units.map OutUnit.bytes =
      [slice s (256 + sizeof_parthead) (256 + sizeof_parthead + n)] := by
  obtain ⟨hok, hlen, -, hn1, -, hn2⟩ := h
  have np1 : (hdr_at s 256).nextpart = 500 := hdr_at_nextpart_of_slice s 256 500 hn1 (by norm_num)
  have np2 : (hdr_at s 500).nextpart = 0 := hdr_at_nextpart_of_slice s 500 0 hn2 (by norm_num)
  obtain ⟨eu, ev, ef⟩ := mode_extract_of_ok (fuel + 2) s hok
  simp only [sizeof_parthead_eq] at hlen
  have hcase := extract_loop_cases (fuel + 1) (after_filehead s) 0x180 partname_init rfl
  simp only [after_filehead, sizeof_filehead_eq, sizeof_parthead_eq, np1] at hcase
  rcases hcase with ⟨hc, _⟩ | ⟨_, hc, _⟩ | ⟨_, _, eu1, ev1, ef1⟩
  · omega
  · omega
  · have hcase2 := extract_loop_cases fuel ⟨s, 500, false⟩ 500 (partname_incr partname_init) rfl
    simp only [sizeof_parthead_eq, np2] at hcase2
    rcases hcase2 with ⟨hc, _⟩ | ⟨_, _, eu2, ev2, ef2⟩ | ⟨_, hc, _⟩
    · omega
    · simp only [after_filehead, sizeof_filehead_eq] at eu ev ef
      rw [eu, ev, ef, eu1, ev1, ef1, eu2, ev2, ef2]
      refine ⟨rfl, ?_, rfl, rfl, xcount 500 0x180, ?_⟩
      · simp [np1, np2]
      · simp [slice, sizeof_parthead_eq]
    · exact absurd rfl hc

/-- Instance of the amended C7 on the scenario stream `stream_500`. -/
theorem C7_scenario_one_unit_witness :
    scenario_500 stream_500 ∧ (mode_extract 5 stream_500).units.length = 1 :=
  ⟨by decide, (C7_scenario_one_unit 3 stream_500 (by decide)).2.2.1⟩

/-- C8 (the code at a failing input): on the well-formed stream `stream_three` (headers at
256, 520 and the terminal one at 656) the emitted payloads are `stream[384, 392)` and
`stream[648, 656)`, and the concatenation of header bytes and emitted payload of the
visited partitions differs from the stream range `[256, 656)` that runs from the first
partition header to the end of the last emitted payload, whether or not the terminal
header is counted among the visited partitions. -/
theorem C8_roundtrip_breaks :
    (mode_extract 6 stream_three).finished = true ∧
    (mode_extract 6 stream_three).visits.map (fun v => (v.start, v.ph.nextpart)) =
      [(256, 520), (520, 656), (656, 0)] ∧
    (mode_extract 6 stream_three).units.map OutUnit.bytes =
      [slice stream_three 384 392, slice stream_three 648 656] ∧
    (mode_extract 6 stream_three).visits.filterMap (visit_bytes stream_three) =
      (mode_extract 6 stream_three).units.map OutUnit.bytes ∧
    roundtrip_image stream_three (mode_extract 6 stream_three).visits ≠
      slice stream_three (16 + sizeof_filehead) 656 ∧
    roundtrip_image stream_three (mode_extract 6 stream_three).visits.dropLast ≠
      slice stream_three (16 + sizeof_filehead) 656 := by
  decide

/-! ## Claims on the chain as a whole -/

theorem hdr_at_nextpart_lt (s : List Byte) (p : Nat) : (hdr_at s p).nextpart < 2 ^ 32 :=
  Nat.mod_lt _ (by norm_num)

/-- On a forward chain that is read with `lastpos` equal to the start of its first header
and that ends with a zero `nextpart`, the emitted payloads and the headers tile the stream
from the first header of the chain to the end of the terminal header. -/
theorem XLinked_tiling (s : List Byte) : ∀ (vs : List XVisit) (p : Nat) (vl : XVisit),
    XLinked s p p vs → vs.getLast? = some vl → vl.ph.nextpart = 0 →
    (∀ v ∈ vs, v.ph.nextpart ≠ 0 → v.start + sizeof_parthead ≤ v.ph.nextpart) →
    ((vs.filterMap (visit_bytes s)).map List.length).sum + vs.length * sizeof_parthead + p =
      vl.start + sizeof_parthead ∧ vl.start + sizeof_parthead ≤ s.length := by
  intro vs
  induction vs with
  | nil => intro p vl _ h; simp at h
  | cons v vs ih =>
    intro p vl hl hlast hterm hfwd
    obtain ⟨hst, hlp, hin, hph, hc, hz, hrest⟩ := hl
    cases vs with
    | nil =>
      simp only [List.getLast?_singleton, Option.some.injEq] at hlast
      subst hlast
      have hnone : visit_bytes s v = none := by simp [visit_bytes, hc, hterm]
      simp only [List.filterMap_cons, hnone, List.filterMap_nil, List.map_nil, List.sum_nil,
        List.length_singleton, hst]
      omega
    | cons w ws =>
      have hnz : v.ph.nextpart ≠ 0 := fun h0 => by simpa using hz h0
      have hlt : v.ph.nextpart < 2 ^ 32 := by rw [hph]; exact hdr_at_nextpart_lt s p
      have hf := hfwd v (List.mem_cons_self _ _) hnz
      rw [hst] at hf
      have hw : v.ph.nextpart + sizeof_parthead ≤ s.length := hrest.2.2.1
      have hcount : xcount v.ph.nextpart p = v.ph.nextpart - p - sizeof_parthead :=
        xcount_of_le _ _ hf (by omega)
      have hbytes : visit_bytes s v =
          some ((s.drop (p + sizeof_parthead)).take (v.ph.nextpart - p - sizeof_parthead)) := by
        simp [visit_bytes, hc, hnz, hcount, hst]
      have hlast2 : (w :: ws).getLast? = some vl := by
        simpa [List.getLast?_cons_cons] using hlast
      obtain ⟨ih1, ih2⟩ := ih v.ph.nextpart vl hrest hlast2 hterm
        (fun u hu => hfwd u (List.mem_cons_of_mem _ hu))
      refine ⟨?_, ih2⟩
      simp only [List.filterMap_cons, hbytes, List.map_cons, List.sum_cons, List.length_cons,
        List.length_take, List.length_drop] at ih1 ⊢
      simp only [sizeof_parthead_eq] at *
      have hmin : min (v.ph.nextpart - p - 128) (s.length - (p + 128))
          = v.ph.nextpart - p - 128 := by omega
      rw [hmin]
      have hmul : (ws.length + 1 + 1) * 128 = (ws.length + 1) * 128 + 128 := by ring
      omega

/-- C9 (counterexample): the 400-byte stream `stream_terminal_only` ends its chain with a
zero `nextpart` in its only partition header, 16 bytes before the end of the stream; the
lengths of the emitted units (none), one header record, the file header and the digest
add up to 384, not to the stream length 400. -/
theorem C9_total_length_counterexample :
    (mode_extract 5 stream_terminal_only).finished = true ∧
    (mode_extract 5 stream_terminal_only).visits.map (fun v => (v.start, v.ph.nextpart)) =
      [(256, 0)] ∧
    ((mode_extract 5 stream_terminal_only).units.map (fun u => u.bytes.length)).sum +
        (mode_extract 5 stream_terminal_only).visits.length * sizeof_parthead +
        sizeof_filehead + 16 ≠ stream_terminal_only.length := by
  decide

/-- C9 (amended): when the chain of a stream terminates through a zero `nextpart` and
every header after the first has a `nextpart` that is zero or at least the position after
that header, then the lengths of the units emitted for the headers after the first, plus
`sizeof(parthead)` for each header after the first, plus the offset of the second header,
equal the offset just past the terminal header, which is at most the stream length. -/
theorem C9_tiling_after_first (fuel : Nat) (s : List Byte) (v0 v1 vl : XVisit)
    (rest : List XVisit)
    (hvis : (mode_extract fuel s).visits = v0 :: v1 :: rest)
    (hlast : (v1 :: rest).getLast? = some vl) (hterm : vl.ph.nextpart = 0)
    (hfwd : ∀ v ∈ v1 :: rest, v.ph.nextpart ≠ 0 → v.start + sizeof_parthead ≤ v.ph.nextpart) :
    (((mode_extract fuel s).units.drop 1).map (fun u => u.bytes.length)).sum +
        (v1 :: rest).length * sizeof_parthead + v1.start = vl.start + sizeof_parthead ∧
      vl.start + sizeof_parthead ≤ s.length := by
  have hl := mode_extract_linked fuel s
  rw [hvis] at hl
  obtain ⟨_, _, _, _, hc0, hz0, hrest⟩ := hl
  have hnz0 : v0.ph.nextpart ≠ 0 := fun h0 => by simpa using hz0 h0
  have hstart : v1.start = v0.ph.nextpart := hrest.1
  have hunits : (mode_extract fuel s).units.map OutUnit.bytes =
      (v0 :: v1 :: rest).filterMap (visit_bytes s) := by
    rw [← hvis]
    by_cases hok : file_ok s
    · rw [(mode_extract_of_ok fuel s hok).1, (mode_extract_of_ok fuel s hok).2.1]
      exact extract_loop_units fuel (after_filehead s) _ _ rfl
    · rw [(mode_extract_of_not_ok fuel s hok).1, (mode_extract_of_not_ok fuel s hok).2.1]
      rfl
  have hb0 : ∃ b, visit_bytes s v0 = some b := by
    simp [visit_bytes, hc0, hnz0]
  obtain ⟨b, hb⟩ := hb0
  have hdrop : ((mode_extract fuel s).units.drop 1).map (fun u => u.bytes.length) =
      ((v1 :: rest).filterMap (visit_bytes s)).map List.length := by
    have h1 : ((mode_extract fuel s).units.drop 1).map (fun u => u.bytes.length) =
        (((mode_extract fuel s).units.map OutUnit.bytes).drop 1).map List.length := by
      rw [← List.map_drop, List.map_map]
      rfl
    rw [h1, hunits, List.filterMap_cons, hb]
    rfl
  rw [hdrop, hstart]
  exact XLinked_tiling s (v1 :: rest) v0.ph.nextpart vl hrest hlast hterm hfwd

/-- Instance of the amended C9 on `stream_three`: the second unit (8 bytes) and the two
headers after the first (at 520 and 656) reach from offset 520 to offset 784. -/
theorem C9_tiling_after_first_witness :
    (mode_extract 6 stream_three).visits =
      [⟨256, hdr_at stream_three 256, 0x180, some 8⟩,
        ⟨520, hdr_at stream_three 520, 520, some 8⟩,
        ⟨656, hdr_at stream_three 656, 656, none⟩] ∧
    (((mode_extract 6 stream_three).units.drop 1).map (fun u => u.bytes.length)).sum +
        2 * sizeof_parthead + 520 = 656 + sizeof_parthead ∧
      656 + sizeof_parthead ≤ stream_three.length :=
  ⟨by decide,
    C9_tiling_after_first 6 stream_three ⟨256, hdr_at stream_three 256, 0x180, some 8⟩
      ⟨520, hdr_at stream_three 520, 520, some 8⟩ ⟨656, hdr_at stream_three 656, 656, none⟩
      [⟨656, hdr_at stream_three 656, 656, none⟩] (by decide) (by decide) (by decide)
      (by decide)⟩

theorem ILinked_head (s : List Byte) (vs : List IVisit) (p : Nat) (hl : ILinked s p vs)
    (v : IVisit) (hv : vs[0]? = some v) : v.start = p := by
  cases vs with
  | nil => simp at hv
  | cons v0 vs =>
    simp only [List.getElem?_cons_zero, Option.some.injEq] at hv
    subst hv
    exact hl.1

theorem ILinked_next (s : List Byte) : ∀ (vs : List IVisit) (p : Nat),
    ILinked s p vs → ∀ (i : Nat) (v w : IVisit), vs[i]? = some v → vs[i + 1]? = some w →
      w.start = v.ph.nextpart := by
  intro vs
  induction vs with
  | nil => intro p _ i v w h; simp at h
  | cons v0 vs ih =>
    intro p hl i v w hv hw
    obtain ⟨_, _, _, _, _, hrest⟩ := hl
    simp only [List.getElem?_cons_succ] at hw
    cases i with
    | zero =>
      simp only [List.getElem?_cons_zero, Option.some.injEq] at hv
      subst hv
      exact ILinked_head s vs _ hrest w hw
    | succ k =>
      simp only [List.getElem?_cons_succ] at hv
      exact ih _ hrest k v w hv hw

theorem XLinked_increasing (s : List Byte) : ∀ (vs : List XVisit) (p l : Nat),
    XLinked s p l vs →
    (∀ v ∈ vs, v.ph.nextpart ≠ 0 → v.start + sizeof_parthead ≤ v.ph.nextpart) →
    (∀ v ∈ vs, p ≤ v.start) ∧ List.Pairwise (fun a b => a < b) (vs.map XVisit.start) := by
  intro vs
  induction vs with
  | nil => intro p l _ _; simp
  | cons v vs ih =>
    intro p l hl hfwd
    obtain ⟨hst, _, _, _, _, hz, hrest⟩ := hl
    by_cases hnz : v.ph.nextpart = 0
    · rw [hz hnz]
      simp [hst]
    · have hf := hfwd v (List.mem_cons_self _ _) hnz
      obtain ⟨ih1, ih2⟩ := ih _ _ hrest (fun u hu => hfwd u (List.mem_cons_of_mem _ hu))
      simp only [sizeof_parthead_eq] at hf
      constructor
      · intro u hu
        rcases List.mem_cons.1 hu with rfl | hm
        · omega
        · have := ih1 u hm; omega
      · rw [List.map_cons, List.pairwise_cons]
        refine ⟨?_, ih2⟩
        intro b hb
        obtain ⟨u, hu, rfl⟩ := List.mem_map.1 hb
        have := ih1 u hu
        omega

theorem ILinked_increasing (s : List Byte) : ∀ (vs : List IVisit) (p : Nat),
    ILinked s p vs →
    (∀ v ∈ vs, v.ph.nextpart ≠ 0 → v.start + sizeof_parthead ≤ v.ph.nextpart) →
    (∀ v ∈ vs, p ≤ v.start) ∧ List.Pairwise (fun a b => a < b) (vs.map IVisit.start) := by
  intro vs
  induction vs with
  | nil => intro p _ _; simp
  | cons v vs ih =>
    intro p hl hfwd
    obtain ⟨hst, _, _, _, hz, hrest⟩ := hl
    by_cases hnz : v.ph.nextpart = 0
    · rw [hz hnz]
      simp [hst]
    · have hf := hfwd v (List.mem_cons_self _ _) hnz
      obtain ⟨ih1, ih2⟩ := ih _ hrest (fun u hu => hfwd u (List.mem_cons_of_mem _ hu))
      simp only [sizeof_parthead_eq] at hf
      constructor
      · intro u hu
        rcases List.mem_cons.1 hu with rfl | hm
        · omega
        · have := ih1 u hm; omega
      · rw [List.map_cons, List.pairwise_cons]
        refine ⟨?_, ih2⟩
        intro b hb
        obtain ⟨u, hu, rfl⟩ := List.mem_map.1 hb
        have := ih1 u hu
        omega

/-- C10 (counterexample): on `stream_backward` the first partition header, read at 256
with the cursor at 384 afterwards, has the nonzero `nextpart` 300, and both walkers seek
to 300 and decode their next header there: the seek goes backward. -/
theorem C10_backward_seek_counterexample :
    (mode_info 5 stream_backward).visits.map (fun v => (v.start, v.ph.nextpart, v.dofs)) =
      [(256, 300, 384), (300, 0, 428)] ∧
    (mode_extract 5 stream_backward).visits.map (fun v => (v.start, v.ph.nextpart)) =
      [(256, 300), (300, 0)] ∧
    ¬ (∀ v ∈ (mode_info 5 stream_backward).visits, v.ph.nextpart ≠ 0 →
        v.start + sizeof_parthead ≤ v.ph.nextpart) ∧
    ¬ (∀ v ∈ (mode_extract 5 stream_backward).visits, v.ph.nextpart ≠ 0 →
        v.start + sizeof_parthead ≤ v.ph.nextpart) := by
  decide

/-- C10 (amended): both walkers read the header that follows a header with nonzero
`nextpart` at offset `nextpart`, without comparing it with the cursor; on every stream
whose decoded headers all have a `nextpart` that is zero or at least the cursor position
right after the header, the offsets of the decoded headers strictly increase, so no seek
goes backward. -/
theorem C10_forward_chain_monotone (fuel : Nat) (s : List Byte) :
    (∀ (i : Nat) (v w : IVisit), (mode_info fuel s).visits[i]? = some v →
      (mode_info fuel s).visits[i + 1]? = some w → w.start = v.ph.nextpart) ∧
    (∀ (i : Nat) (v w : XVisit), (mode_extract fuel s).visits[i]? = some v →
      (mode_extract fuel s).visits[i + 1]? = some w → w.start = v.ph.nextpart) ∧
    ((∀ v ∈ (mode_info fuel s).visits, v.ph.nextpart ≠ 0 →
        v.start + sizeof_parthead ≤ v.ph.nextpart) →
      List.Pairwise (fun a b => a < b) ((mode_info fuel s).visits.map IVisit.start)) ∧
    ((∀ v ∈ (mode_extract fuel s).visits, v.ph.nextpart ≠ 0 →
        v.start + sizeof_parthead ≤ v.ph.nextpart) →
      List.Pairwise (fun a b => a < b) ((mode_extract fuel s).visits.map XVisit.start)) :=
  ⟨fun i v w hv hw => ILinked_next s _ _ (mode_info_linked fuel s) i v w hv hw,
    fun i v w hv hw => (XLinked_next s _ _ _ (mode_extract_linked fuel s) i v w hv hw).1,
    fun h => (ILinked_increasing s _ _ (mode_info_linked fuel s) h).2,
    fun h => (XLinked_increasing s _ _ _ (mode_extract_linked fuel s) h).2⟩

/-- Instance of the amended C10 on `stream_three`, whose headers are decoded at 256, 520
and 656. -/
theorem C10_forward_chain_monotone_witness :
    (∀ v ∈ (mode_extract 6 stream_three).visits, v.ph.nextpart ≠ 0 →
        v.start + sizeof_parthead ≤ v.ph.nextpart) ∧
    (mode_extract 6 stream_three).visits.map XVisit.start = [256, 520, 656] ∧
    List.Pairwise (fun a b => a < b) ((mode_extract 6 stream_three).visits.map XVisit.start) ∧
    List.Pairwise (fun a b => a < b) ((mode_info 6 stream_three).visits.map IVisit.start) :=
  ⟨by decide, by decide,
    (C10_forward_chain_monotone 6 stream_three).2.2.2 (by decide),
    (C10_forward_chain_monotone 6 stream_three).2.2.1 (by decide)⟩

/-! ## Claims on the end of the chain and on the decoders as stream operations -/

theorem parthead_warn_no_error (r : List Byte) : ∀ m ∈ parthead_warn r, is_error_msg m = false := by
  intro m hm
  unfold parthead_warn at hm
  split at hm
  · simp only [List.mem_singleton] at hm; subst hm; rfl
  · simp at hm

theorem extract_loop_no_error : ∀ (fuel : Nat) (f : FILE) (lastpos : Nat) (pn : List Byte),
    f.eof = false → ∀ m ∈ (extract_loop fuel f lastpos pn).stdout, is_error_msg m = false := by
  intro fuel
  induction fuel with
  | zero => intro f l pn _ m hm; simp [extract_loop] at hm
  | succ fuel ih =>
    intro f l pn he m hm
    by_cases h : f.pos + sizeof_parthead ≤ f.data.length
    · by_cases hz : (hdr_at f.data f.pos).nextpart = 0
      · rw [extract_loop_last fuel f l pn h hz] at hm
        simp only [List.mem_append, List.mem_singleton] at hm
        rcases hm with hm | rfl
        · exact parthead_warn_no_error _ m hm
        · rfl
      · rw [extract_loop_next fuel f l pn h hz he] at hm
        simp only [List.mem_append, List.mem_singleton] at hm
        rcases hm with (((hm | rfl) | rfl) | rfl) | hm
        · exact parthead_warn_no_error _ m hm
        · rfl
        · rfl
        · rfl
        · exact ih _ _ _ rfl m hm
    · rw [extract_loop_short fuel f l pn (by omega)] at hm
      simp at hm

theorem mode_extract_stdout_of_ok (fuel : Nat) (s : List Byte) (h : file_ok s) :
    ∃ fh, (mode_extract fuel s).stdout =
      [Msg.md5sum (s.take 16), Msg.print_filehead fh] ++
        (extract_loop fuel (after_filehead s) 0x180 partname_init).stdout := by
  obtain ⟨h16, h1, h2⟩ := (file_ok_iff s).1 h
  obtain ⟨fh, hfh⟩ := read_filehead_of_ok { data := s, pos := 16, eof := false } h1 h2
  have hl : (List.take 16 s).length = 16 := by simp [List.length_take]; omega
  refine ⟨fh, ?_⟩
  simp only [mode_extract, fread_digest s h16, hl, ne_eq, not_true_eq_false, if_false, hfh,
    after_filehead, List.append_nil, List.singleton_append, List.cons_append, List.nil_append]

/-- C11: on every stream of length exactly `16 + sizeof(filehead)` whose file header has
the magic "LARA firmware", `mode_extract` decodes the file header, `read_parthead` returns
false on the first attempt, the loop ends, no unit is emitted and no error line is printed;
and at any point of either walk a partition header that cannot be read in full ends the
loop without printing anything. -/
theorem C11_truncated_after_filehead :
    (∀ (fuel : Nat) (s : List Byte), s.length = 16 + sizeof_filehead →
      (s.drop 16).take 13 = magic_firmware →
      (read_filehead ⟨s, 16, false⟩).1.isSome = true ∧
      (read_parthead (after_filehead s)).1 = none ∧
      (mode_extract (fuel + 1) s).units = [] ∧ (mode_extract (fuel + 1) s).visits = [] ∧
      (mode_extract (fuel + 1) s).finished = true ∧
      ∀ m ∈ (mode_extract (fuel + 1) s).stdout, is_error_msg m = false) ∧
    (∀ (fuel : Nat) (f : FILE) (lastpos : Nat) (pn : List Byte),
      f.data.length - f.pos < sizeof_parthead →
      extract_loop (fuel + 1) f lastpos pn = XRun.mk [] [] [] true ∧
      info_loop (fuel + 1) f = IRun.mk [] [] true) := by
  constructor
  · intro fuel s hlen hm
    have hok : file_ok s := ⟨by omega, by rw [← hm]; simp [slice]⟩
    have hshort : (after_filehead s).data.length <
        (after_filehead s).pos + sizeof_parthead := by
      simp only [after_filehead, hlen, sizeof_parthead_eq]; omega
    obtain ⟨eu, ev, ef⟩ := mode_extract_of_ok (fuel + 1) s hok
    obtain ⟨fh, eo⟩ := mode_extract_stdout_of_ok (fuel + 1) s hok
    obtain ⟨f1, hr⟩ := read_parthead_of_gt (after_filehead s) hshort
    rw [eu, ev, ef, eo, extract_loop_short fuel _ _ _ hshort, hr]
    refine ⟨?_, rfl, rfl, rfl, rfl, ?_⟩
    · rw [read_filehead_isSome_iff]
      exact ⟨by simp only [hlen]; omega, by simpa [slice] using hm⟩
    · intro m hmem
      simp only [List.append_nil, List.mem_cons, List.mem_singleton, List.mem_nil_iff,
        or_false] at hmem
      rcases hmem with rfl | rfl <;> rfl
  · intro fuel f l pn h
    have h2 : f.data.length < f.pos + sizeof_parthead := by
      simp only [sizeof_parthead_eq] at *; omega
    exact ⟨extract_loop_short fuel f l pn h2, info_loop_short fuel f h2⟩

/-- Instance of C11 on the 256-byte stream `stream_header_only`. -/
theorem C11_truncated_after_filehead_witness :
    stream_header_only.length = 16 + sizeof_filehead ∧
    (stream_header_only.drop 16).take 13 = magic_firmware ∧
    (mode_extract 1 stream_header_only).units = [] ∧
    (mode_extract 1 stream_header_only).finished = true :=
  ⟨by decide, by decide,
    (C11_truncated_after_filehead.1 0 stream_header_only (by decide) (by decide)).2.2.1,
    (C11_truncated_after_filehead.1 0 stream_header_only (by decide) (by decide)).2.2.2.2.1⟩

/-- C12 (counterexample): on `stream_two` the successful `read_filehead` at offset 16
leaves the cursor at `16 + 240`, not `16 + 242`, the successful `read_parthead` at offset
256 leaves it at `256 + 128`, not `256 + 134`; and on the 256-byte stream
`stream_header_only` the file header is decoded although only 240 bytes follow the
digest. -/
theorem C12_record_size_counterexample :
    (read_filehead ⟨stream_two, 16, false⟩).1.isSome = true ∧
    (read_filehead ⟨stream_two, 16, false⟩).2.1.pos = 16 + 240 ∧
    (read_filehead ⟨stream_two, 16, false⟩).2.1.pos ≠ 16 + 242 ∧
    (read_parthead ⟨stream_two, 256, false⟩).1.isSome = true ∧
    (read_parthead ⟨stream_two, 256, false⟩).2.1.pos = 256 + 128 ∧
    (read_parthead ⟨stream_two, 256, false⟩).2.1.pos ≠ 256 + 134 ∧
    stream_header_only.length - 16 < 242 ∧
    (read_filehead ⟨stream_header_only, 16, false⟩).1.isSome = true := by
  decide

/-- C12 (amended): a successful header decode reads exactly the fixed record size and
changes nothing of the stream but the cursor, which advances by that size: 240 bytes for
the file header (`13 + 2 + 14 + 2 + 64 + 16 + 16 + 113`) and 128 bytes for a partition
header (`14 + 2 + 4 + 4 + 72 + 32`), the sums of the field widths. -/
theorem C12_decode_advances_by_record_size :
    sizeof_filehead = 13 + 2 + 14 + 2 + 64 + 16 + 16 + 113 ∧ sizeof_filehead = 240 ∧
    sizeof_parthead = 14 + 2 + 4 + 4 + 72 + 32 ∧ sizeof_parthead = 128 ∧
    (∀ (f : FILE) (fh : filehead) (f1 : FILE) (out : List Msg),
      read_filehead f = (some fh, f1, out) →
      f1.pos = f.pos + 240 ∧ f1.data = f.data ∧ f1.eof = f.eof ∧ out = [] ∧
        (fread sizeof_filehead f).1 = slice f.data f.pos (f.pos + 240)) ∧
    (∀ (f : FILE) (ph : parthead) (f1 : FILE) (out : List Msg),
      read_parthead f = (some ph, f1, out) →
      f1.pos = f.pos + 128 ∧ f1.data = f.data ∧ f1.eof = f.eof ∧
        (fread sizeof_parthead f).1 = slice f.data f.pos (f.pos + 128)) := by
  refine ⟨rfl, rfl, rfl, rfl, ?_, ?_⟩
  · intro f fh f1 out h
    have hs : (read_filehead f).1.isSome = true := by rw [h]; rfl
    obtain ⟨hle, hm⟩ := (read_filehead_isSome_iff f).1 hs
    obtain ⟨fh2, h2⟩ := read_filehead_of_ok f hle hm
    rw [h2] at h
    simp only [Prod.mk.injEq] at h
    obtain ⟨-, hf, ho⟩ := h
    subst hf
    refine ⟨rfl, rfl, rfl, ho.symm, ?_⟩
    simp [fread, slice, sizeof_filehead_eq]
  · intro f ph f1 out h
    have hle := read_parthead_some_le f ph f1 out h
    rw [read_parthead_of_le f hle] at h
    simp only [Prod.mk.injEq] at h
    obtain ⟨-, hf, -⟩ := h
    subst hf
    refine ⟨rfl, rfl, rfl, ?_⟩
    simp [fread, slice, sizeof_parthead_eq]

/-- Instance of the amended C12 on the first partition header of `stream_two`. -/
theorem C12_decode_advances_by_record_size_witness :
    read_parthead ⟨stream_two, 256, false⟩ =
      (some (hdr_at stream_two 256), ⟨stream_two, 384, false⟩, []) ∧
    (384 = 256 + 128 ∧ stream_two = stream_two ∧ false = false ∧
      (fread sizeof_parthead ⟨stream_two, 256, false⟩).1 = slice stream_two 256 (256 + 128)) :=
  ⟨by decide,
    C12_decode_advances_by_record_size.2.2.2.2.2 ⟨stream_two, 256, false⟩
      (hdr_at stream_two 256) ⟨stream_two, 384, false⟩ [] (by decide)⟩

/-! ## Claims on the reported data offset -/

theorem to_int_of_lt (n : Nat) (h : n < 2 ^ 31) : to_int n = (n : Int) := by
  unfold to_int
  have e : n % 2 ^ 32 = n := Nat.mod_eq_of_lt (by omega)
  rw [e, if_pos h]

theorem to_int_emod (n : Nat) : to_int n % 2 ^ 32 = (n : Int) % 2 ^ 32 := by
  unfold to_int
  split <;> omega

theorem slice_append_left (a b : List Byte) (i j : Nat) (h : j ≤ a.length) :
    slice (a ++ b) i j = slice a i j := by
  unfold slice
  by_cases hi : i ≤ a.length
  · rw [List.drop_append_of_le_length hi, List.take_append_of_le_length]
    simp only [List.length_drop]; omega
  · have e : j - i = 0 := by omega
    simp [e]

theorem byteAt_append_replicate (a : List Byte) (n k : Nat) (h : a.length ≤ k) :
    byteAt (a ++ List.replicate n 0) k = 0 := by
  unfold byteAt
  rw [List.getD_eq_getElem?_getD, List.getElem?_append_right h]
  by_cases hk : k - a.length < n
  · simp [List.getElem?_replicate, hk]
  · simp [List.getElem?_replicate, hk]

theorem stream_4g_head_length : stream_4g_head.length = 384 := by decide

theorem stream_4g_length : stream_4g.length = 2 ^ 32 := by
  unfold stream_4g
  rw [List.length_append, List.length_replicate, stream_4g_head_length]
  norm_num

theorem stream_4g_ok : file_ok stream_4g := by
  refine ⟨by rw [stream_4g_length]; decide, ?_⟩
  unfold stream_4g
  rw [slice_append_left _ _ 16 29 (by rw [stream_4g_head_length]; omega)]
  decide

theorem stream_4g_first : (hdr_at stream_4g 256).nextpart = 2 ^ 32 - 128 := by
  apply hdr_at_nextpart_of_slice _ _ _ _ (by norm_num)
  unfold stream_4g
  rw [slice_append_left _ _ _ _ (by rw [stream_4g_head_length]; omega)]
  decide

theorem stream_4g_byte (k : Nat) (h : 384 ≤ k) : byteAt stream_4g k = 0 :=
  byteAt_append_replicate stream_4g_head (2 ^ 32 - 384) k (by rw [stream_4g_head_length]; exact h)

theorem stream_4g_second : (hdr_at stream_4g (2 ^ 32 - 128)).nextpart = 0 := by
  have h := hdr_at_nextpart stream_4g (2 ^ 32 - 128)
  rw [stream_4g_byte _ (by norm_num), stream_4g_byte _ (by norm_num),
    stream_4g_byte _ (by norm_num), stream_4g_byte _ (by norm_num)] at h
  rw [h]
  rfl

theorem stream_4g_visits :
    (mode_info 2 stream_4g).visits =
      [IVisit.mk 256 (hdr_at stream_4g 256) (to_int (256 + sizeof_parthead)),
        IVisit.mk (2 ^ 32 - 128) (hdr_at stream_4g (2 ^ 32 - 128))
          (to_int (2 ^ 32 - 128 + sizeof_parthead))] := by
  rw [(mode_info_of_ok 2 stream_4g stream_4g_ok).1]
  show (info_loop (1 + 1) ⟨stream_4g, 256, false⟩).visits = _
  have h1 := info_loop_cases 1 ⟨stream_4g, 256, false⟩
  simp only [] at h1
  rcases h1 with ⟨hc, _⟩ | ⟨_, hc, _⟩ | ⟨_, _, e1, _⟩
  · exfalso
    rw [stream_4g_length, sizeof_parthead_eq] at hc
    norm_num at hc
  · exfalso
    rw [stream_4g_first] at hc
    norm_num at hc
  · rw [stream_4g_first] at e1
    have h2 := info_loop_cases 0 ⟨stream_4g, 2 ^ 32 - 128, false⟩
    simp only [] at h2
    rcases h2 with ⟨hc, _⟩ | ⟨_, _, e2, _⟩ | ⟨_, hc, _⟩
    · exfalso
      rw [stream_4g_length, sizeof_parthead_eq] at hc
      norm_num at hc
    · rw [e1, e2]
    · exact absurd stream_4g_second hc

theorem print_u32_to_int (n : Nat) : print_u32 (to_int n) = n % 2 ^ 32 := by
  unfold print_u32
  rw [to_int_emod]
  have e : (n : Int) % 2 ^ 32 = ((n % 2 ^ 32 : Nat) : Int) := by omega
  rw [e, Int.toNat_ofNat]

/-- C13 (counterexample): on the stream `stream_4g` of `2 ^ 32` bytes, `mode_info` decodes
the second header at offset `2 ^ 32 - 128`; the position after it is `2 ^ 32`, and the data
offset printed for it, the `int` shown with `%u`, is 0. -/
theorem C13_data_offset_counterexample :
    (mode_info 2 stream_4g).visits.map (fun v => (v.start, print_u32 v.dofs)) =
      [(256, 384), (2 ^ 32 - 128, 0)] ∧
    (0 : Nat) ≠ 2 ^ 32 - 128 + sizeof_parthead := by
  rw [stream_4g_visits]
  simp only [List.map_cons, List.map_nil]
  decide

theorem ILinked_mem (s : List Byte) : ∀ (vs : List IVisit) (p : Nat),
    ILinked s p vs → ∀ v ∈ vs, v.dofs = to_int (v.start + sizeof_parthead) ∧
      v.start + sizeof_parthead ≤ s.length ∧ v.ph = hdr_at s v.start := by
  intro vs
  induction vs with
  | nil => intro p _ v h; simp at h
  | cons v0 vs ih =>
    intro p hl v hv
    obtain ⟨hst, hin, hph, hd, _, hrest⟩ := hl
    rcases List.mem_cons.1 hv with rfl | hm
    · rw [hst]; exact ⟨hd, hin, hph⟩
    · exact ih _ hrest v hm

theorem info_loop_reported : ∀ (fuel : Nat) (f : FILE),
    ∀ v ∈ (info_loop fuel f).visits, Msg.data_offset v.dofs ∈ (info_loop fuel f).stdout := by
  intro fuel
  induction fuel with
  | zero => intro f v hv; simp [info_loop] at hv
  | succ fuel ih =>
    intro f v hv
    by_cases h : f.pos + sizeof_parthead ≤ f.data.length
    · by_cases hz : (hdr_at f.data f.pos).nextpart = 0
      · rw [info_loop_last fuel f h hz] at hv ⊢
        simp only [List.mem_singleton] at hv
        subst hv
        simp
      · rw [info_loop_next fuel f h hz] at hv ⊢
        rcases List.mem_cons.1 hv with rfl | hm
        · simp
        · have := ih _ v hm
          simp only [List.mem_append]
          exact Or.inr this
    · rw [info_loop_short fuel f (by omega)] at hv
      simp at hv

theorem mode_info_stdout_of_ok (fuel : Nat) (s : List Byte) (h : file_ok s) :
    ∃ fh, (mode_info fuel s).stdout =
      [Msg.md5sum (s.take 16), Msg.print_filehead fh] ++
        (info_loop fuel (after_filehead s)).stdout := by
  obtain ⟨h16, h1, h2⟩ := (file_ok_iff s).1 h
  obtain ⟨fh, hfh⟩ := read_filehead_of_ok { data := s, pos := 16, eof := false } h1 h2
  have hl : (List.take 16 s).length = 16 := by simp [List.length_take]; omega
  refine ⟨fh, ?_⟩
  simp only [mode_info, fread_digest s h16, hl, ne_eq, not_true_eq_false, if_false, hfh,
    after_filehead, List.append_nil, List.singleton_append, List.cons_append, List.nil_append]

/-- C13 (amended): in `mode_info` the data offset printed for a decoded partition header
(the `int` `dofs` shown with `%.8x` and `%u`) is the position after that header, its start
plus `sizeof(parthead)`, modulo `2 ^ 32`: it equals that position whenever the position
is below `2 ^ 32`, in particular on every stream shorter than `2 ^ 32` bytes; the first
header starts at `16 + sizeof(filehead)` and every later header at the `nextpart` of the
header before it. -/
theorem C13_data_offset (fuel : Nat) (s : List Byte) (i : Nat) (v : IVisit)
    (hv : (mode_info fuel s).visits[i]? = some v) :
    Msg.data_offset v.dofs ∈ (mode_info fuel s).stdout ∧
    print_u32 v.dofs = (v.start + sizeof_parthead) % 2 ^ 32 ∧
    (v.start + sizeof_parthead < 2 ^ 32 → print_u32 v.dofs = v.start + sizeof_parthead) ∧
    (s.length < 2 ^ 32 → print_u32 v.dofs = v.start + sizeof_parthead) ∧
    (i = 0 → v.start = 16 + sizeof_filehead) ∧
    (∀ (j : Nat) (u : IVisit), j + 1 = i → (mode_info fuel s).visits[j]? = some u →
      v.start = u.ph.nextpart) := by
  have hl := mode_info_linked fuel s
  have hmem : v ∈ (mode_info fuel s).visits := List.getElem?_mem hv
  obtain ⟨hd, hin, _⟩ := ILinked_mem s _ _ hl v hmem
  refine ⟨?_, ?_, ?_, ?_, ?_, ?_⟩
  · by_cases hok : file_ok s
    · obtain ⟨fh, eo⟩ := mode_info_stdout_of_ok fuel s hok
      rw [(mode_info_of_ok fuel s hok).1] at hmem
      rw [eo, List.mem_append]
      exact Or.inr (info_loop_reported fuel _ v hmem)
    · rw [(mode_info_of_not_ok fuel s hok).1] at hmem
      simp at hmem
  · rw [hd]; exact print_u32_to_int _
  · intro h; rw [hd, print_u32_to_int]; exact Nat.mod_eq_of_lt h
  · intro h; rw [hd, print_u32_to_int]; exact Nat.mod_eq_of_lt (by omega)
  · intro hi
    subst hi
    exact ILinked_head s _ _ hl v hv
  · intro j u hj hu
    subst hj
    exact ILinked_next s _ _ hl j u v hu hv

/-- Instance of the amended C13 on the second header of `stream_three`: it starts at 520,
the `nextpart` of the first header, and the data offset printed for it is 648. -/
theorem C13_data_offset_witness :
    (mode_info 6 stream_three).visits[1]? = some ⟨520, hdr_at stream_three 520, 648⟩ ∧
    Msg.data_offset 648 ∈ (mode_info 6 stream_three).stdout ∧
    (520 + sizeof_parthead < 2 ^ 32 → print_u32 648 = 520 + sizeof_parthead) :=
  ⟨by decide,
    (C13_data_offset 6 stream_three 1 ⟨520, hdr_at stream_three 520, 648⟩ (by decide)).1,
    (C13_data_offset 6 stream_three 1 ⟨520, hdr_at stream_three 520, 648⟩ (by decide)).2.2.1⟩

/-! ## Claims on the extraction sink -/

theorem copy_slice_eq (s : List Byte) (p c : Nat) :
    copy_slice s p c = (s.drop p).take c := by
  unfold copy_slice slice
  rw [Nat.add_sub_cancel_left]
  apply List.take_eq_take.2
  simp only [List.length_drop]
  omega

/-- C14: for every stream `s`, cursor `p` and count `c` (a `size_t`), the chunked copy of
`write_file` writes exactly the slice `s[p, p + min(c, |s| - p))`, leaves the cursor at
`p + min(c, |s| - p)`, requests at most 512 bytes per read, and its loop ends within
`|s| - p + 2` evaluations of the loop condition (any larger bound gives the same result);
a count of 0 gives an empty unit. -/
theorem C14_write_file_is_slice (s : List Byte) (p c : Nat) (pn : List Byte)
    (hc : c < 2 ^ 64) :
    (∀ fuel : Nat, s.length - p + 2 ≤ fuel →
      write_loop fuel ⟨s, p, false⟩ c [] =
        some (copy_slice s p c,
          ⟨s, p + min c (s.length - p), decide (s.length - p < c)⟩)) ∧
    write_file ⟨s, p, false⟩ pn c =
      some (⟨pn, copy_slice s p c⟩,
        ⟨s, p + min c (s.length - p), decide (s.length - p < c)⟩,
        partname_incr pn, [Msg.writing_file pn]) ∧
    (∀ count : Nat, (if count < 512 then count else 512) ≤ 512) ∧
    (c = 0 → copy_slice s p c = []) := by
  refine ⟨?_, ?_, ?_, ?_⟩
  · intro fuel hf
    rw [write_loop_spec fuel ⟨s, p, false⟩ c [] rfl hc hf, copy_slice_eq]
    rfl
  · rw [write_file_spec ⟨s, p, false⟩ pn c rfl, u64_of_lt c hc, copy_slice_eq]
  · intro count
    split <;> omega
  · intro h0
    rw [copy_slice_eq, h0]
    rfl

/-- Instance of C14: copying 600 bytes from offset 384 of the 648-byte stream
`stream_two` yields the 264 bytes up to the end of the stream, in two reads. -/
theorem C14_write_file_is_slice_witness :
    (600 : Nat) < 2 ^ 64 ∧
    write_file ⟨stream_two, 384, false⟩ partname_init 600 =
      some (⟨partname_init, copy_slice stream_two 384 600⟩,
        ⟨stream_two, 384 + min 600 (stream_two.length - 384),
          decide (stream_two.length - 384 < 600)⟩,
        partname_incr partname_init, [Msg.writing_file partname_init]) ∧
    copy_slice stream_two 384 600 = stream_two.drop 384 :=
  ⟨by decide, (C14_write_file_is_slice stream_two 384 600 partname_init (by decide)).2.1,
    by decide⟩

theorem nth_name_eq (k : Nat) :
    nth_name k = [112, 97, 114, 116, 110, 97, 109, 101, 95, Fin.ofNat (48 + k)] := rfl

theorem partname_incr_nth (k : Nat) : partname_incr (nth_name k) = nth_name (k + 1) := by
  rw [nth_name_eq, nth_name_eq]
  simp only [partname_incr, byteAt, List.getD_cons_zero, List.getD_cons_succ, List.set_cons_succ,
    List.set_cons_zero]
  congr 9
  have e : ((Fin.ofNat (48 + k) : Byte) + 1) = Fin.ofNat (48 + (k + 1)) := by
    apply Fin.ext
    simp only [Fin.val_add, Fin.ofNat, Fin.val_mk, Fin.val_one]
    omega
  rw [e]

theorem iterate_partname_incr (k : Nat) :
    Nat.iterate partname_incr k partname_init = nth_name k := by
  induction k with
  | zero => rfl
  | succ k ih => rw [Function.iterate_succ_apply', ih, partname_incr_nth]

theorem extract_loop_names : ∀ (fuel : Nat) (f : FILE) (lastpos : Nat) (pn : List Byte),
    f.eof = false → ∀ (k : Nat) (u : OutUnit),
    (extract_loop fuel f lastpos pn).units[k]? = some u →
      u.name = Nat.iterate partname_incr k pn := by
  intro fuel
  induction fuel with
  | zero => intro f l pn _ k u h; simp [extract_loop] at h
  | succ fuel ih =>
    intro f l pn he k u hu
    rcases extract_loop_cases fuel f l pn he with ⟨_, e⟩ | ⟨_, _, eu, _, _⟩ | ⟨_, _, eu, _, _⟩
    · rw [e] at hu; simp at hu
    · rw [eu] at hu; simp at hu
    · rw [eu] at hu
      cases k with
      | zero =>
        simp only [List.getElem?_cons_zero, Option.some.injEq] at hu
        subst hu
        rfl
      | succ k =>
        simp only [List.getElem?_cons_succ] at hu
        rw [Function.iterate_succ_apply]
        exact ih _ _ _ rfl k u hu

theorem mode_extract_names (fuel : Nat) (s : List Byte) (k : Nat) (u : OutUnit)
    (hu : (mode_extract fuel s).units[k]? = some u) : u.name = nth_name k := by
  by_cases hok : file_ok s
  · rw [(mode_extract_of_ok fuel s hok).1] at hu
    rw [extract_loop_names fuel _ _ _ rfl k u hu, iterate_partname_incr]
  · rw [(mode_extract_of_not_ok fuel s hok).1] at hu
    simp at hu

theorem nth_name_last (k : Nat) : byteAt (nth_name k) 9 = Fin.ofNat (48 + k) := rfl

theorem c_string_nth_name (k : Nat) :
    c_string (nth_name k) =
      if (Fin.ofNat (48 + k) : Byte) = 0 then [112, 97, 114, 116, 110, 97, 109, 101, 95]
      else nth_name k := by
  rw [nth_name_eq]
  by_cases h : (Fin.ofNat (48 + k) : Byte) = 0
  · simp [c_string, List.takeWhile, h]
  · simp [c_string, List.takeWhile, h]

theorem nth_name_injective (j k : Nat) (hjk : j < k) (hd : k - j < 256) :
    nth_name j ≠ nth_name k ∧ c_string (nth_name j) ≠ c_string (nth_name k) := by
  have hne : (Fin.ofNat (48 + j) : Byte) ≠ Fin.ofNat (48 + k) := by
    intro h
    have := congrArg Fin.val h
    simp only [Fin.ofNat, Fin.val_mk] at this
    omega
  have hne2 : nth_name j ≠ nth_name k := by
    intro h
    apply hne
    rw [← nth_name_last j, ← nth_name_last k, h]
  refine ⟨hne2, ?_⟩
  rw [c_string_nth_name, c_string_nth_name]
  by_cases h1 : (Fin.ofNat (48 + j) : Byte) = 0
  · have h2 : (Fin.ofNat (48 + k) : Byte) ≠ 0 := fun h => hne (h1.trans h.symm)
    rw [if_pos h1, if_neg h2, nth_name_eq]
    intro h
    have := congrArg List.length h
    simp at this
  · by_cases h2 : (Fin.ofNat (48 + k) : Byte) = 0
    · rw [if_neg h1, if_pos h2, nth_name_eq]
      intro h
      have := congrArg List.length h
      simp at this
    · rw [if_neg h1, if_neg h2]
      exact hne2

/-- C15: the `k`-th unit emitted in a run of `mode_extract` (`k = 0, 1, 2, ...`) is named
by the base "partname_0" with its last character replaced by the character of code
`('0' + k) mod 256`; the first ten names are "partname_0" to "partname_9"; and two units
emitted fewer than 256 apart in the same run have distinct names, as character arrays and
as the NUL-terminated file names handed to `fopen`. -/
theorem C15_unit_names (fuel : Nat) (s : List Byte) :
    (∀ (k : Nat) (u : OutUnit), (mode_extract fuel s).units[k]? = some u →
      u.name = nth_name k) ∧
    (List.range 10).map nth_name =
      [[112, 97, 114, 116, 110, 97, 109, 101, 95, 48],
        [112, 97, 114, 116, 110, 97, 109, 101, 95, 49],
        [112, 97, 114, 116, 110, 97, 109, 101, 95, 50],
        [112, 97, 114, 116, 110, 97, 109, 101, 95, 51],
        [112, 97, 114, 116, 110, 97, 109, 101, 95, 52],
        [112, 97, 114, 116, 110, 97, 109, 101, 95, 53],
        [112, 97, 114, 116, 110, 97, 109, 101, 95, 54],
        [112, 97, 114, 116, 110, 97, 109, 101, 95, 55],
        [112, 97, 114, 116, 110, 97, 109, 101, 95, 56],
        [112, 97, 114, 116, 110, 97, 109, 101, 95, 57]] ∧
    (∀ (j k : Nat) (u w : OutUnit), j < k → k - j < 256 →
      (mode_extract fuel s).units[j]? = some u → (mode_extract fuel s).units[k]? = some w →
      u.name ≠ w.name ∧ c_string u.name ≠ c_string w.name) := by
  refine ⟨mode_extract_names fuel s, by decide, ?_⟩
  intro j k u w hjk hd hu hw
  rw [mode_extract_names fuel s j u hu, mode_extract_names fuel s k w hw]
  exact nth_name_injective j k hjk hd

/-- Instance of C15 on `stream_three`: its two units are named "partname_0" and
"partname_1". -/
theorem C15_unit_names_witness :
    (mode_extract 6 stream_three).units[1]? =
      some ⟨[112, 97, 114, 116, 110, 97, 109, 101, 95, 49], slice stream_three 648 656⟩ ∧
    ([112, 97, 114, 116, 110, 97, 109, 101, 95, 49] : List Byte) = nth_name 1 ∧
    (mode_extract 6 stream_three).units[0]? = some ⟨partname_init, slice stream_three 384 392⟩ ∧
    partname_init ≠ [112, 97, 114, 116, 110, 97, 109, 101, 95, 49] :=
  ⟨by decide,
    (C15_unit_names 6 stream_three).1 1
      ⟨[112, 97, 114, 116, 110, 97, 109, 101, 95, 49], slice stream_three 648 656⟩ (by decide),
    by decide,
    ((C15_unit_names 6 stream_three).2.2 0 1 ⟨partname_init, slice stream_three 384 392⟩
      ⟨[112, 97, 114, 116, 110, 97, 109, 101, 95, 49], slice stream_three 648 656⟩
      (by decide) (by decide) (by decide) (by decide)).1⟩

/-! ## Claims on the boundary arithmetic -/

/-- C16 (the code at a failing input): on `stream_two` the first partition header is read
at offset `16 + sizeof(filehead) = 256` while `lastpos` holds its initial value `0x180 =
384`, which is `16 + sizeof(filehead) + sizeof(parthead)`, the offset at which the first
header ends, and not the offset at which it starts; for the second header `lastpos` is
the offset at which that header starts. -/
theorem C16_initial_lastpos :
    (mode_extract 5 stream_two).visits.map (fun v => (v.start, v.lastpos)) =
      [(256, 384), (520, 520)] ∧
    (0x180 : Nat) = 16 + sizeof_filehead + sizeof_parthead ∧
    (0x180 : Nat) ≠ 16 + sizeof_filehead := by
  decide

theorem mode_extract_units_bytes (fuel : Nat) (s : List Byte) :
    (mode_extract fuel s).units.map OutUnit.bytes =
      (mode_extract fuel s).visits.filterMap (visit_bytes s) := by
  by_cases hok : file_ok s
  · rw [(mode_extract_of_ok fuel s hok).1, (mode_extract_of_ok fuel s hok).2.1]
    exact extract_loop_units fuel (after_filehead s) _ _ rfl
  · rw [(mode_extract_of_not_ok fuel s hok).1, (mode_extract_of_not_ok fuel s hok).2.1]
    rfl

theorem XLinked_lastpos_lt (s : List Byte) : ∀ (vs : List XVisit) (p l : Nat),
    XLinked s p l vs → l < 2 ^ 32 → ∀ v ∈ vs, v.lastpos < 2 ^ 32 := by
  intro vs
  induction vs with
  | nil => intro p l _ _ v h; simp at h
  | cons v0 vs ih =>
    intro p l hl hlt v hv
    obtain ⟨_, hlp, _, hph, _, _, hrest⟩ := hl
    rcases List.mem_cons.1 hv with rfl | hm
    · rw [hlp]; exact hlt
    · exact ih _ _ hrest (by rw [hph]; exact hdr_at_nextpart_lt s p) v hm

theorem XLinked_bytes_index (s : List Byte) : ∀ (vs : List XVisit) (p l : Nat),
    XLinked s p l vs → ∀ (i : Nat) (v : XVisit), vs[i]? = some v → v.ph.nextpart ≠ 0 →
      (vs.filterMap (visit_bytes s))[i]? = visit_bytes s v := by
  intro vs
  induction vs with
  | nil => intro p l _ i v h; simp at h
  | cons v0 vs ih =>
    intro p l hl i v hv hnz
    obtain ⟨_, _, _, _, hc, hz, hrest⟩ := hl
    cases i with
    | zero =>
      simp only [List.getElem?_cons_zero, Option.some.injEq] at hv
      subst hv
      have hb : visit_bytes s v0 = some ((s.drop (v0.start + sizeof_parthead)).take
          (xcount v0.ph.nextpart l)) := by simp [visit_bytes, hc, hnz]
      rw [List.filterMap_cons, hb]
      simp only [List.getElem?_cons_zero]
    | succ k =>
      simp only [List.getElem?_cons_succ] at hv
      have hne : v0.ph.nextpart ≠ 0 := by
        intro h0
        rw [hz h0] at hv
        simp at hv
      have hb : visit_bytes s v0 = some ((s.drop (v0.start + sizeof_parthead)).take
          (xcount v0.ph.nextpart l)) := by simp [visit_bytes, hc, hne]
      rw [List.filterMap_cons, hb]
      simp only [List.getElem?_cons_succ]
      exact ih _ _ hrest k v hv hnz

/-- C17: in `mode_extract`, when a decoded header has a nonzero `nextpart` below
`lastpos + sizeof(parthead)`, no error line is printed; the count handed to `write_file`
is `(nextpart - lastpos - sizeof(parthead)) mod 2 ^ 64`, that is
`2 ^ 64 - (lastpos + sizeof(parthead) - nextpart)`, which exceeds the length of every
stream shorter than `2 ^ 63` bytes; the unit emitted for the header holds every byte from
the end of the header to the end of the stream; and the next header, when one is decoded,
is read at offset `nextpart`. -/
theorem C17_wraparound_copies_rest (fuel : Nat) (s : List Byte) (i : Nat) (v : XVisit)
    (hv : (mode_extract fuel s).visits[i]? = some v) (hnz : v.ph.nextpart ≠ 0)
    (hlt : v.ph.nextpart < v.lastpos + sizeof_parthead) (hs : s.length < 2 ^ 63) :
    (∀ m ∈ (mode_extract fuel s).stdout, is_error_msg m = false) ∧
    (∃ c : Nat, v.count = some c ∧
      (c : Int) =
        ((v.ph.nextpart : Int) - (v.lastpos : Int) - (sizeof_parthead : Int)) % 2 ^ 64 ∧
      c = 2 ^ 64 - (v.lastpos + sizeof_parthead - v.ph.nextpart) ∧ s.length < c) ∧
    (∃ u : OutUnit, (mode_extract fuel s).units[i]? = some u ∧
      u.bytes = s.drop (v.start + sizeof_parthead) ∧
      u.bytes = slice s (v.start + sizeof_parthead) s.length) ∧
    (∀ w : XVisit, (mode_extract fuel s).visits[i + 1]? = some w →
      w.start = v.ph.nextpart) := by
  have hl := mode_extract_linked fuel s
  have hmem : v ∈ (mode_extract fuel s).visits := List.getElem?_mem hv
  obtain ⟨hc, hnp⟩ := XLinked_count s _ _ _ hl v hmem hnz
  have hlp : v.lastpos < 2 ^ 32 := XLinked_lastpos_lt s _ _ _ hl (by norm_num) v hmem
  have hci := xcount_int v.ph.nextpart v.lastpos
  have hcn : xcount v.ph.nextpart v.lastpos =
      2 ^ 64 - (v.lastpos + sizeof_parthead - v.ph.nextpart) := by
    simp only [sizeof_parthead_eq] at hci hlt ⊢
    norm_num at hci hnp hlp ⊢
    omega
  have hbig : s.length < xcount v.ph.nextpart v.lastpos := by
    rw [hcn]
    simp only [sizeof_parthead_eq]
    norm_num at hs hlp ⊢
    omega
  refine ⟨?_, ⟨_, hc, hci, hcn, hbig⟩, ?_, ?_⟩
  · by_cases hok : file_ok s
    · obtain ⟨fh, eo⟩ := mode_extract_stdout_of_ok fuel s hok
      intro m hm
      rw [eo] at hm
      simp only [List.cons_append, List.nil_append, List.mem_cons] at hm
      rcases hm with rfl | rfl | hm
      · rfl
      · rfl
      · exact extract_loop_no_error fuel _ _ _ rfl m hm
    · rw [(mode_extract_of_not_ok fuel s hok).2.1] at hmem
      simp at hmem
  · have hidx := XLinked_bytes_index s _ _ _ hl i v hv hnz
    rw [← mode_extract_units_bytes, List.getElem?_map] at hidx
    have ht : (s.drop (v.start + sizeof_parthead)).take (xcount v.ph.nextpart v.lastpos) =
        s.drop (v.start + sizeof_parthead) :=
      List.take_of_length_le (by simp only [List.length_drop]; omega)
    have hvb : visit_bytes s v = some (s.drop (v.start + sizeof_parthead)) := by
      simp only [visit_bytes, hc, Option.map_some', ht]
    rw [hvb] at hidx
    cases hu : (mode_extract fuel s).units[i]? with
    | none => rw [hu] at hidx; simp at hidx
    | some u =>
      rw [hu] at hidx
      simp only [Option.map_some', Option.some.injEq] at hidx
      refine ⟨u, rfl, hidx, ?_⟩
      rw [hidx]
      unfold slice
      symm
      apply List.take_of_length_le
      simp only [List.length_drop]
      omega
  · intro w hw
    exact (XLinked_next s _ _ _ hl i v w hv hw).1

/-- Instance of C17 on the scenario stream `stream_500`: the first header has `nextpart`
500 below `0x180 + 128`, the count is `2 ^ 64 - 12` and the unit holds the 244 bytes from
offset 384 to the end of the stream. -/
theorem C17_wraparound_copies_rest_witness :
    (mode_extract 5 stream_500).visits[0]? =
      some ⟨256, hdr_at stream_500 256, 0x180, some (2 ^ 64 - 12)⟩ ∧
    (hdr_at stream_500 256).nextpart = 500 ∧
    (∃ u : OutUnit, (mode_extract 5 stream_500).units[0]? = some u ∧
      u.bytes = stream_500.drop (256 + sizeof_parthead) ∧
      u.bytes = slice stream_500 (256 + sizeof_parthead) stream_500.length) :=
  ⟨by decide, by decide,
    (C17_wraparound_copies_rest 5 stream_500 0
      ⟨256, hdr_at stream_500 256, 0x180, some (2 ^ 64 - 12)⟩ (by decide) (by decide)
      (by decide) (by decide)).2.2.1⟩

/-! ## Claims on termination and on the two walks -/

end Lara
